import Mathlib

/-!
A shallow embedding of the sharded LRU cache of `util/cache.cc` (leveldb).

Keys are byte strings (`List Nat`), values are opaque tokens (`Nat`).
`size_t` arithmetic on the `usage_` counter is modelled modulo `2 ^ 64`
(`W64`); the `uint32_t` reference counter is modelled as an unbounded `Nat`
(the claims under study operate far below the wrap threshold, and every
reachable refcount equals a table bit plus an outstanding-handle count).

Ghost fields (`handles`, `freed`, `created`, `evicted`) record the
observable history — outstanding handles, deleter invocations, values at
creation, and eviction-pass victims — without influencing behaviour.
-/

namespace LevelDB

/-- A key is a byte string, as carried by `Slice`. -/
abbrev Key := List Nat

/-- Modulus of `size_t` arithmetic (`usage_`, `charge`). -/
def W64 : Nat := 2 ^ 64

/-- Modulus of `uint32_t` (hash values). -/
def W32 : Nat := 2 ^ 32

/-- One cache entry: the mutable-state part of `struct LRUHandle`
(`value`, `charge`, `key_length`/`key_data`, `refs`, `hash`).  The
intrusive pointers (`next_hash`, `next`, `prev`) are represented by the
shard's `table` and `ring` id lists instead. -/
structure Entry where
  key : Key
  hash : Nat
  value : Nat
  charge : Nat
  refs : Nat
  deriving Repr, DecidableEq

/-- State of one `LRUCache` shard.  `heap` is the set of allocated,
not-yet-freed entries, keyed by an allocation id (`malloc` order);
`table` is the set of ids reachable from the `HandleTable`; `ring` is
the LRU ring, head = `lru_.next` (oldest), last = `lru_.prev` (newest).
`handles`, `freed`, `created`, `evicted` are ghost history. -/
structure Shard where
  capacity : Nat
  usage : Nat
  heap : List (Nat × Entry)
  table : List Nat
  ring : List Nat
  nextId : Nat
  handles : List Nat
  freed : List (Nat × Key × Nat)
  created : List (Nat × (Key × Nat × Nat × Nat))
  evicted : List Nat
  deriving Repr, DecidableEq

/-- Look an id up in an allocation list (first match). -/
def hGet : List (Nat × Entry) → Nat → Option Entry
  | [], _ => none
  | (j, e) :: t, i => if j = i then some e else hGet t i

/-- Replace the entry stored under an id (first match; no-op if absent). -/
def hSet : List (Nat × Entry) → Nat → Entry → List (Nat × Entry)
  | [], _, _ => []
  | (j, f) :: t, i, e => if j = i then (i, e) :: t else (j, f) :: hSet t i e

/-- Remove the entry stored under an id (first match): models `free(e)`. -/
def hDel : List (Nat × Entry) → Nat → List (Nat × Entry)
  | [], _ => []
  | (j, f) :: t, i => if j = i then t else (j, f) :: hDel t i

/-- Sum of the `charge` fields of an allocation list. -/
def chargeSum (l : List (Nat × Entry)) : Nat :=
  (l.map (fun p => p.2.charge)).sum

/-- Look a ghost pair list up by id (first match). -/
def cGet {β : Type} : List (Nat × β) → Nat → Option β
  | [], _ => none
  | (j, v) :: t, i => if j = i then some v else cGet t i

/-- `HandleTable::FindPointer` / `HandleTable::Lookup`: the first table id
whose entry matches the given hash and key (`(*ptr)->hash == hash && key ==
(*ptr)->key()`). -/
def tFind (heap : List (Nat × Entry)) : List Nat → Key → Nat → Option Nat
  | [], _, _ => none
  | i :: t, k, h =>
    match hGet heap i with
    | some e => if e.hash = h ∧ e.key = k then some i else tFind heap t k h
    | none => tFind heap t k h

/-- `HandleTable::Insert` splices the new node into the old node's chain
slot: the old id is replaced in place. -/
def replaceId (t : List Nat) (old new : Nat) : List Nat :=
  t.map (fun j => if j = old then new else j)

/-- `LRUCache::Unref`: decrement the refcount; on reaching zero subtract
the charge from `usage_` (size_t arithmetic), invoke the deleter (ghost
`freed` log) and free the entry.  Call sites guarantee the entry is
allocated with `refs > 0` (the `assert`). -/
def unref (s : Shard) (i : Nat) : Shard :=
  match hGet s.heap i with
  | none => s
  | some e =>
    if e.refs - 1 = 0 then
      { s with
        usage := (s.usage + (W64 - e.charge)) % W64
        heap := hDel s.heap i
        freed := s.freed ++ [(i, e.key, e.value)] }
    else
      { s with heap := hSet s.heap i { e with refs := e.refs - 1 } }

/-- `LRUCache::Lookup`: on a table hit, increment the refcount, move the
entry to the newest end of the ring (`LRU_Remove` + `LRU_Append`) and
return a handle (ghost: record it as outstanding). -/
def lookup (s : Shard) (k : Key) (h : Nat) : Option Nat × Shard :=
  match tFind s.heap s.table k h with
  | none => (none, s)
  | some i =>
    match hGet s.heap i with
    | none => (some i, s)
    | some e =>
      (some i,
        { s with
          heap := hSet s.heap i { e with refs := e.refs + 1 }
          ring := s.ring.erase i ++ [i]
          handles := s.handles ++ [i] })

/-- `LRUCache::Release`: just `Unref` (ghost: the handle stops being
outstanding). -/
def release (s : Shard) (i : Nat) : Shard :=
  let s' := unref s i
  { s' with handles := s.handles.erase i }

/-- One iteration of the eviction loop at the end of `LRUCache::Insert`:
if `usage_ > capacity_` and the ring is non-empty, pop the oldest ring
entry, remove it from the table by its key/hash (`table_.Remove(old->key(),
old->hash)`), and `Unref` it (ghost: log the victim in `evicted`).
Returns `none` when the loop guard fails. -/
def evictOnce (s : Shard) : Option Shard :=
  if s.capacity < s.usage then
    match s.ring with
    | [] => none
    | old :: rest =>
      match hGet s.heap old with
      | none => none
      | some e =>
        let s1 := { s with ring := rest }
        let s2 :=
          match tFind s1.heap s1.table e.key e.hash with
          | some j => { s1 with table := s1.table.erase j }
          | none => s1
        let s3 := unref s2 old
        some { s3 with evicted := s3.evicted ++ [old] }
  else none

/-- The eviction loop, fueled.  The fuel is the ring length: each
iteration shortens the ring by one, so the loop always terminates within
that budget. -/
def evictN : Nat → Shard → Shard
  | 0, s => s
  | n + 1, s =>
    match evictOnce s with
    | some s' => evictN n s'
    | none => s

/-- The full eviction loop of `LRUCache::Insert`. -/
def evict (s : Shard) : Shard := evictN s.ring.length s

/-- `LRUCache::Insert`: allocate a fresh entry with `refs = 2`, append it
to the ring, add its charge to `usage_`, install it in the table
(replacing and unref-ing any same-key/hash entry), then run the eviction
loop.  Returns the handle (ghost: outstanding, with its created value
logged). -/
def insert (s : Shard) (k : Key) (h v c : Nat) : Nat × Shard :=
  let i := s.nextId
  let e : Entry := { key := k, hash := h, value := v, charge := c % W64, refs := 2 }
  let s1 := { s with
    nextId := i + 1
    heap := s.heap ++ [(i, e)]
    ring := s.ring ++ [i]
    usage := (s.usage + c % W64) % W64
    handles := s.handles ++ [i]
    created := s.created ++ [(i, (k, h, v, c % W64))] }
  let s2 :=
    match tFind s1.heap s1.table k h with
    | some old =>
      unref { s1 with table := replaceId s1.table old i, ring := s1.ring.erase old } old
    | none => { s1 with table := i :: s1.table }
  (i, evict s2)

/-- `LRUCache::Erase`: remove the key's entry from the table, unlink it
from the ring, and drop the table's reference. -/
def erase (s : Shard) (k : Key) (h : Nat) : Shard :=
  match tFind s.heap s.table k h with
  | none => s
  | some i => unref { s with table := s.table.erase i, ring := s.ring.erase i } i

/-- `Cache::Value` on a handle: the entry's stored value. -/
def value (s : Shard) (i : Nat) : Option Nat :=
  (hGet s.heap i).map Entry.value

/-- A freshly constructed shard (`LRUCache::LRUCache` + `SetCapacity`). -/
def mkShard (cap : Nat) : Shard :=
  { capacity := cap, usage := 0, heap := [], table := [], ring := []
    nextId := 0, handles := [], freed := [], created := [], evicted := [] }

/-- States of one shard reachable by the public operations, with the
documented handle preconditions on `Release`. -/
inductive Reach : Shard → Prop
  | init (cap : Nat) : Reach (mkShard cap)
  | insert {s : Shard} (k : Key) (h v c : Nat) :
      Reach s → Reach (insert s k h v c).2
  | lookup {s : Shard} (k : Key) (h : Nat) :
      Reach s → Reach (lookup s k h).2
  | release {s : Shard} (i : Nat) :
      Reach s → i ∈ s.handles → Reach (release s i)
  | erase {s : Shard} (k : Key) (h : Nat) :
      Reach s → Reach (erase s k h)

/-- The key and hash stored under an id, if allocated. -/
def khOf (heap : List (Nat × Entry)) (i : Nat) : Option (Key × Nat) :=
  (hGet heap i).map (fun e => (e.key, e.hash))

/-- Sum of `charge` over the entries currently reachable from the hash
table — the spec's reading of `usage`. -/
def tableChargeSum (s : Shard) : Nat :=
  ((s.table.filterMap (fun i => hGet s.heap i)).map Entry.charge).sum

/-- Shard-level public operations, for operation traces. -/
inductive Op where
  | ins (k : Key) (h v c : Nat)
  | lkp (k : Key) (h : Nat)
  | rel (i : Nat)
  | ers (k : Key) (h : Nat)
  deriving Repr, DecidableEq

/-- Apply one public operation (discarding the returned handle). -/
def applyOp (s : Shard) : Op → Shard
  | .ins k h v c => (insert s k h v c).2
  | .lkp k h => (lookup s k h).2
  | .rel i => release s i
  | .ers k h => erase s k h

/-- The documented precondition of an operation: `Release` takes an
outstanding handle of this cache; the others are unconditional. -/
def OkOp (s : Shard) : Op → Prop
  | .rel i => i ∈ s.handles
  | _ => True

/-- Executing a list of public operations, each meeting its
precondition. -/
inductive Steps : Shard → List Op → Shard → Prop
  | nil (s : Shard) : Steps s [] s
  | cons {s s' : Shard} {op : Op} {ops : List Op} :
      OkOp s op → Steps (applyOp s op) ops s' → Steps s (op :: ops) s'

/-- Whether an operation addresses the given key/hash (an `Insert`
replacing it, a `Lookup` touching it, or an `Erase` removing it). -/
def touches (op : Op) (k : Key) (h : Nat) : Prop :=
  match op with
  | .ins k' h' _ _ => k' = k ∧ h' = h
  | .lkp k' h' => k' = k ∧ h' = h
  | .ers k' h' => k' = k ∧ h' = h
  | .rel _ => False

/-- Left branch of the LRU-order trace invariant: entry `A` is still in
the ring, ordered before `B` whenever `B` is also present (`[A, B]` is a
sublist of the ring, whose head is the oldest end), and neither has been
taken by the eviction pass. -/
def lruQL (A B : Nat) (s : Shard) : Prop :=
  A ∈ s.ring ∧ (B ∈ s.ring → List.Sublist [A, B] s.ring) ∧
  A ∉ s.evicted ∧ B ∉ s.evicted

/-- LRU-order trace invariant: `A`'s identity (key, hash, value at
creation, recorded in the ghost `created` log) is fixed, both ids are
already allocated, and either `A` is still ahead of `B` in the ring or
`A` has already been taken by the eviction pass. -/
def lruInv (A B : Nat) (t : Key × Nat × Nat × Nat) (s : Shard) : Prop :=
  cGet s.created A = some t ∧ A < s.nextId ∧ B < s.nextId ∧ A ≠ B ∧
  (lruQL A B s ∨ A ∈ s.evicted)

/-! ### The sharded cache (`ShardedLRUCache`)

`HashSlice` calls `Hash` from `util/hash.h`, which is not part of the
sources at hand; the hash function is therefore taken as a parameter
`hf` (see `hashOf`). -/

/-- `kNumShards = 1 << kNumShardBits` with `kNumShardBits = 4`. -/
def kNumShards : Nat := 16

/-- Modelled from the spec: `HashSlice` computes a 32-bit hash of the
key via `Hash(s.data(), s.size(), 0)` from `util/hash.h`, whose body is
not among the sources; it is modelled as an arbitrary function `hf`
truncated to `uint32_t`. -/
def hashOf (hf : Key → Nat) (k : Key) : Nat := hf k % W32

/-- `Shard(hash) = hash >> (32 - kNumShardBits)`: the top 4 bits. -/
def shardOf (h : Nat) : Nat := h / 2 ^ 28

/-- State of a `ShardedLRUCache`: 16 shards plus the `NewId` counter
`last_id_` (a `uint64_t`). -/
structure SCache where
  shards : List Shard
  lastId : Nat
  deriving Repr, DecidableEq

/-- `NewLRUCache(capacity)`: every shard gets capacity
`(capacity + (kNumShards - 1)) / kNumShards`. -/
def newCache (cap : Nat) : SCache :=
  { shards := List.replicate kNumShards (mkShard ((cap + (kNumShards - 1)) / kNumShards))
    lastId := 0 }

/-- A sharded-cache handle: the owning shard index (recoverable from the
entry's stored hash, as `ShardedLRUCache::Release` does) and the
entry id within that shard. -/
abbrev SHandle := Nat × Nat

/-- `ShardedLRUCache::Insert`: hash the key once, route to one shard. -/
def sInsert (hf : Key → Nat) (c : SCache) (k : Key) (v ch : Nat) : SHandle × SCache :=
  let h := hashOf hf k
  let n := shardOf h
  let r := insert (c.shards.getD n (mkShard 0)) k h v ch
  ((n, r.1), { c with shards := c.shards.set n r.2 })

/-- `ShardedLRUCache::Lookup`. -/
def sLookup (hf : Key → Nat) (c : SCache) (k : Key) : Option SHandle × SCache :=
  let h := hashOf hf k
  let n := shardOf h
  let r := lookup (c.shards.getD n (mkShard 0)) k h
  ((r.1.map (fun i => (n, i))), { c with shards := c.shards.set n r.2 })

/-- `ShardedLRUCache::Release`: routes by the handle's stored hash. -/
def sRelease (c : SCache) (p : SHandle) : SCache :=
  { c with shards := c.shards.set p.1 (release (c.shards.getD p.1 (mkShard 0)) p.2) }

/-- `ShardedLRUCache::Erase`. -/
def sErase (hf : Key → Nat) (c : SCache) (k : Key) : SCache :=
  let h := hashOf hf k
  let n := shardOf h
  { c with shards := c.shards.set n (erase (c.shards.getD n (mkShard 0)) k h) }

/-- `ShardedLRUCache::Value`: the entry's stored value. -/
def sValue (c : SCache) (p : SHandle) : Option Nat :=
  value (c.shards.getD p.1 (mkShard 0)) p.2

/-- `ShardedLRUCache::NewId`: `return ++(last_id_)` on a `uint64_t`. -/
def sNewId (c : SCache) : Nat × SCache :=
  let id := (c.lastId + 1) % W64
  (id, { c with lastId := id })

/-- Sharded-cache operations, for operation traces. -/
inductive SOp where
  | ins (k : Key) (v ch : Nat)
  | lkp (k : Key)
  | rel (p : SHandle)
  | ers (k : Key)
  | newId
  deriving Repr, DecidableEq

/-- Apply one sharded-cache operation (discarding results). -/
def sApply (hf : Key → Nat) (c : SCache) : SOp → SCache
  | .ins k v ch => (sInsert hf c k v ch).2
  | .lkp k => (sLookup hf c k).2
  | .rel p => sRelease c p
  | .ers k => sErase hf c k
  | .newId => (sNewId c).2

/-- Run a list of sharded-cache operations. -/
def sRun (hf : Key → Nat) (c : SCache) : List SOp → SCache
  | [] => c
  | op :: t => sRun hf (sApply hf c op) t

/-- The values returned by the `NewId` calls of a run, in order. -/
def newIdOutputs (hf : Key → Nat) (c : SCache) : List SOp → List Nat
  | [] => []
  | .newId :: t => (sNewId c).1 :: newIdOutputs hf (sNewId c).2 t
  | op :: t => newIdOutputs hf (sApply hf c op) t

/-- Number of `NewId` calls in a trace. -/
def countNewId : List SOp → Nat
  | [] => 0
  | .newId :: t => countNewId t + 1
  | _ :: t => countNewId t

/-- Sharded-cache states reachable from `NewLRUCache(cap)` by the public
operations with a fixed hash function `hf`, with the documented handle
precondition on `Release`. -/
inductive SReach (hf : Key → Nat) (cap : Nat) : SCache → Prop
  | init : SReach hf cap (newCache cap)
  | ins {c : SCache} (k : Key) (v ch : Nat) :
      SReach hf cap c → SReach hf cap (sInsert hf c k v ch).2
  | lkp {c : SCache} (k : Key) :
      SReach hf cap c → SReach hf cap (sLookup hf c k).2
  | rel {c : SCache} (p : SHandle) :
      SReach hf cap c → p.2 ∈ (c.shards.getD p.1 (mkShard 0)).handles →
      SReach hf cap (sRelease c p)
  | ers {c : SCache} (k : Key) :
      SReach hf cap c → SReach hf cap (sErase hf c k)
  | nid {c : SCache} :
      SReach hf cap c → SReach hf cap (sNewId c).2

/-- The shard invariant maintained by every public operation.

* `usageEq`: `usage_` is the (size_t) sum of the charges of all
  *allocated* entries — including entries already evicted or erased from
  the table but kept alive by outstanding handles, since `Unref`
  subtracts the charge only when it frees the entry.
* `refsEq`: the refcount of every allocated entry is exactly one
  reference held by the table (iff the entry is reachable from it) plus
  the number of outstanding handles on it.
* `ringTable`: ring membership and table membership coincide.
* `freed…`: the deleter runs at most once per entry and only on entries
  that are no longer allocated.
* `created…`: an allocated entry's value is the value given at its
  creation.
* `evicted…`: eviction victims never reappear in the ring. -/
structure WF (s : Shard) : Prop where
  usageEq : s.usage = chargeSum s.heap % W64
  chargeLt : ∀ p ∈ s.heap, p.2.charge < W64
  heapNodup : (s.heap.map Prod.fst).Nodup
  heapLt : ∀ p ∈ s.heap, p.1 < s.nextId
  tableNodup : s.table.Nodup
  ringNodup : s.ring.Nodup
  tableAlive : ∀ i ∈ s.table, hGet s.heap i ≠ none
  ringTable : ∀ i : Nat, i ∈ s.ring ↔ i ∈ s.table
  tableKeys : s.table.Pairwise
    (fun a b => ∀ p q, khOf s.heap a = some p → khOf s.heap b = some q → p ≠ q)
  handlesAlive : ∀ i ∈ s.handles, hGet s.heap i ≠ none
  refsEq : ∀ i e, hGet s.heap i = some e →
    e.refs = (if i ∈ s.table then 1 else 0) + s.handles.count i
  aliveRef : ∀ p ∈ s.heap, p.1 ∈ s.table ∨ p.1 ∈ s.handles
  freedNodup : (s.freed.map (fun x => x.1)).Nodup
  freedDead : ∀ x ∈ s.freed, hGet s.heap x.1 = none
  freedLt : ∀ x ∈ s.freed, x.1 < s.nextId
  createdVal : ∀ i e, hGet s.heap i = some e →
    cGet s.created i = some (e.key, e.hash, e.value, e.charge)
  createdLt : ∀ x ∈ s.created, x.1 < s.nextId
  evictedLt : ∀ i ∈ s.evicted, i < s.nextId
  evictedRing : ∀ i ∈ s.evicted, i ∉ s.ring

/-! ### Allocation-list lemmas -/

theorem hGet_append (l₁ l₂ : List (Nat × Entry)) (i : Nat) :
    hGet (l₁ ++ l₂) i =
      match hGet l₁ i with
      | some e => some e
      | none => hGet l₂ i := by
  induction l₁ with
  | nil => simp [hGet]
  | cons p t ih =>
    obtain ⟨j, e⟩ := p
    by_cases hj : j = i <;> simp [hGet, hj, ih]

theorem hGet_append_left {l₁ : List (Nat × Entry)} {i : Nat} {e : Entry}
    (h : hGet l₁ i = some e) (l₂ : List (Nat × Entry)) :
    hGet (l₁ ++ l₂) i = some e := by
  rw [hGet_append, h]

theorem hGet_append_right {l₁ : List (Nat × Entry)} {i : Nat}
    (h : hGet l₁ i = none) (l₂ : List (Nat × Entry)) :
    hGet (l₁ ++ l₂) i = hGet l₂ i := by
  rw [hGet_append, h]

theorem hGet_eq_none {l : List (Nat × Entry)} {i : Nat}
    (h : i ∉ l.map Prod.fst) : hGet l i = none := by
  induction l with
  | nil => simp [hGet]
  | cons p t ih =>
    simp only [List.map_cons, List.mem_cons] at h
    push_neg at h
    simpa [hGet, Ne.symm h.1] using ih h.2

theorem mem_of_hGet {l : List (Nat × Entry)} {i : Nat} {e : Entry}
    (h : hGet l i = some e) : (i, e) ∈ l := by
  induction l with
  | nil => simp [hGet] at h
  | cons p t ih =>
    obtain ⟨j, f⟩ := p
    by_cases hj : j = i
    · subst hj
      simp [hGet] at h
      simp [h]
    · simp [hGet, hj] at h
      exact List.mem_cons_of_mem _ (ih h)

theorem fst_mem_of_hGet {l : List (Nat × Entry)} {i : Nat} {e : Entry}
    (h : hGet l i = some e) : i ∈ l.map Prod.fst := by
  have := mem_of_hGet h
  exact List.mem_map_of_mem Prod.fst this

theorem not_mem_of_hGet_none {l : List (Nat × Entry)} {i : Nat}
    (h : hGet l i = none) : i ∉ l.map Prod.fst := by
  induction l with
  | nil => simp
  | cons p t ih =>
    obtain ⟨j, f⟩ := p
    by_cases hj : j = i
    · simp [hGet, hj] at h
    · simp [hGet, hj] at h
      simp [Ne.symm hj, ih h]

theorem hGet_isSome_of_mem {l : List (Nat × Entry)} {i : Nat}
    (h : i ∈ l.map Prod.fst) : hGet l i ≠ none :=
  fun hn => absurd h (not_mem_of_hGet_none hn)

theorem hGet_ne_none_iff {l : List (Nat × Entry)} {i : Nat} :
    hGet l i ≠ none ↔ i ∈ l.map Prod.fst := by
  constructor
  · intro h
    cases he : hGet l i with
    | none => exact absurd he h
    | some e => exact fst_mem_of_hGet he
  · exact hGet_isSome_of_mem

theorem hGet_hSet_self {l : List (Nat × Entry)} {i : Nat} {f : Entry}
    (h : hGet l i = some f) (e : Entry) : hGet (hSet l i e) i = some e := by
  induction l with
  | nil => simp [hGet] at h
  | cons p t ih =>
    obtain ⟨j, g⟩ := p
    by_cases hj : j = i
    · simp [hGet, hSet, hj]
    · simp [hGet, hSet, hj] at h ⊢
      exact ih h

theorem hGet_hSet_ne (l : List (Nat × Entry)) (i j : Nat) (e : Entry)
    (h : j ≠ i) : hGet (hSet l i e) j = hGet l j := by
  induction l with
  | nil => simp [hSet]
  | cons p t ih =>
    obtain ⟨m, g⟩ := p
    by_cases hm : m = i
    · subst hm
      simp [hSet, hGet, Ne.symm h]
    · simp [hSet, hGet, hm]
      by_cases hmj : m = j <;> simp [hmj, ih]

theorem hGet_hDel_ne (l : List (Nat × Entry)) (i j : Nat) (h : j ≠ i) :
    hGet (hDel l i) j = hGet l j := by
  induction l with
  | nil => simp [hDel]
  | cons p t ih =>
    obtain ⟨m, g⟩ := p
    by_cases hm : m = i
    · subst hm
      simp [hDel, hGet, Ne.symm h]
    · simp [hDel, hGet, hm]
      by_cases hmj : m = j <;> simp [hmj, ih]

theorem fst_hSet (l : List (Nat × Entry)) (i : Nat) (e : Entry) :
    (hSet l i e).map Prod.fst = l.map Prod.fst := by
  induction l with
  | nil => simp [hSet]
  | cons p t ih =>
    obtain ⟨j, f⟩ := p
    by_cases hj : j = i <;> simp [hSet, hj, ih]

theorem fst_hDel (l : List (Nat × Entry)) (i : Nat) :
    (hDel l i).map Prod.fst = (l.map Prod.fst).erase i := by
  induction l with
  | nil => simp [hDel]
  | cons p t ih =>
    obtain ⟨j, f⟩ := p
    by_cases hj : j = i
    · subst hj
      simp [hDel, List.erase_cons_head]
    · simp only [hDel, if_neg hj, List.map_cons]
      rw [List.erase_cons_tail (by simp [hj])]
      rw [ih]

theorem hGet_hDel_self {l : List (Nat × Entry)} {i : Nat}
    (h : (l.map Prod.fst).Nodup) : hGet (hDel l i) i = none := by
  apply hGet_eq_none
  rw [fst_hDel]
  exact h.not_mem_erase

theorem chargeSum_append (l₁ l₂ : List (Nat × Entry)) :
    chargeSum (l₁ ++ l₂) = chargeSum l₁ + chargeSum l₂ := by
  simp [chargeSum]

theorem chargeSum_hSet {l : List (Nat × Entry)} {i : Nat} {f e : Entry}
    (h : hGet l i = some f) (hc : e.charge = f.charge) :
    chargeSum (hSet l i e) = chargeSum l := by
  induction l with
  | nil => simp [hGet] at h
  | cons p t ih =>
    obtain ⟨j, g⟩ := p
    by_cases hj : j = i
    · subst hj
      simp [hGet] at h
      subst h
      simp [hSet, chargeSum, hc]
    · simp [hGet, hj] at h
      simp [hSet, hj, chargeSum] at ih ⊢
      exact ih h

theorem chargeSum_hDel {l : List (Nat × Entry)} {i : Nat} {e : Entry}
    (h : hGet l i = some e) :
    chargeSum l = chargeSum (hDel l i) + e.charge := by
  induction l with
  | nil => simp [hGet] at h
  | cons p t ih =>
    obtain ⟨j, g⟩ := p
    by_cases hj : j = i
    · subst hj
      simp [hGet] at h
      subst h
      simp [hDel, chargeSum]
      ring
    · simp [hGet, hj] at h
      simp [hDel, hj, chargeSum] at ih ⊢
      rw [ih h]
      ring

theorem cGet_append {β : Type} (l₁ l₂ : List (Nat × β)) (i : Nat) :
    cGet (l₁ ++ l₂) i =
      match cGet l₁ i with
      | some v => some v
      | none => cGet l₂ i := by
  induction l₁ with
  | nil => simp [cGet]
  | cons p t ih =>
    obtain ⟨j, v⟩ := p
    by_cases hj : j = i <;> simp [cGet, hj, ih]

theorem cGet_append_left {β : Type} {l₁ l₂ : List (Nat × β)} {i : Nat} {v : β}
    (h : cGet l₁ i = some v) : cGet (l₁ ++ l₂) i = some v := by
  rw [cGet_append, h]

theorem cGet_eq_none {β : Type} {l : List (Nat × β)} {i : Nat}
    (h : ∀ x ∈ l, x.1 ≠ i) : cGet l i = none := by
  induction l with
  | nil => simp [cGet]
  | cons p t ih =>
    obtain ⟨j, v⟩ := p
    have hj : j ≠ i := h (j, v) (by simp)
    simp [cGet, hj]
    exact ih (fun x hx => h x (List.mem_cons_of_mem _ hx))

/-! ### Table-search lemmas -/

theorem tFind_mem {heap : List (Nat × Entry)} {t : List Nat} {k : Key} {h : Nat}
    {i : Nat} (hf : tFind heap t k h = some i) : i ∈ t := by
  induction t with
  | nil => simp [tFind] at hf
  | cons j rest ih =>
    cases hj : hGet heap j with
    | some e =>
      simp only [tFind, hj] at hf
      by_cases hm : e.hash = h ∧ e.key = k
      · rw [if_pos hm] at hf
        simp at hf
        simp [hf]
      · rw [if_neg hm] at hf
        exact List.mem_cons_of_mem _ (ih hf)
    | none =>
      simp only [tFind, hj] at hf
      exact List.mem_cons_of_mem _ (ih hf)

theorem tFind_spec {heap : List (Nat × Entry)} {t : List Nat} {k : Key} {h : Nat}
    {i : Nat} (hf : tFind heap t k h = some i) :
    ∃ e, hGet heap i = some e ∧ e.hash = h ∧ e.key = k := by
  induction t with
  | nil => simp [tFind] at hf
  | cons j rest ih =>
    cases hj : hGet heap j with
    | some e =>
      simp only [tFind, hj] at hf
      by_cases hm : e.hash = h ∧ e.key = k
      · rw [if_pos hm] at hf
        simp at hf
        subst hf
        exact ⟨e, hj, hm⟩
      · rw [if_neg hm] at hf
        exact ih hf
    | none =>
      simp only [tFind, hj] at hf
      exact ih hf

theorem tFind_none {heap : List (Nat × Entry)} {t : List Nat} {k : Key} {h : Nat}
    (hf : tFind heap t k h = none) :
    ∀ i ∈ t, ∀ e, hGet heap i = some e → ¬(e.hash = h ∧ e.key = k) := by
  induction t with
  | nil => simp
  | cons j rest ih =>
    intro i hi e he hm
    cases hj : hGet heap j with
    | some f =>
      simp only [tFind, hj] at hf
      by_cases hfm : f.hash = h ∧ f.key = k
      · rw [if_pos hfm] at hf
        simp at hf
      · rw [if_neg hfm] at hf
        rcases List.mem_cons.mp hi with rfl | hi'
        · rw [hj] at he
          cases he
          exact hfm hm
        · exact ih hf i hi' e he hm
    | none =>
      simp only [tFind, hj] at hf
      rcases List.mem_cons.mp hi with rfl | hi'
      · rw [hj] at he
        cases he
      · exact ih hf i hi' e he hm

theorem tFind_unique {heap : List (Nat × Entry)} {t : List Nat} {i : Nat}
    {e : Entry}
    (hkeys : t.Pairwise
      (fun a b => ∀ p q, khOf heap a = some p → khOf heap b = some q → p ≠ q))
    (hi : i ∈ t) (he : hGet heap i = some e) :
    tFind heap t e.key e.hash = some i := by
  induction t with
  | nil => simp at hi
  | cons j rest ih =>
    rcases List.mem_cons.mp hi with rfl | hi'
    · simp [tFind, he]
    · have hpair := (List.pairwise_cons.mp hkeys).1 i hi'
      cases hj : hGet heap j with
      | some f =>
        have hne : ¬(f.hash = e.hash ∧ f.key = e.key) := by
          intro hm
          exact hpair (f.key, f.hash) (e.key, e.hash)
            (by simp [khOf, hj]) (by simp [khOf, he]) (by simp [hm.1, hm.2])
        simp only [tFind, hj, if_neg hne]
        exact ih (List.pairwise_cons.mp hkeys).2 hi'
      | none =>
        simp only [tFind, hj]
        exact ih (List.pairwise_cons.mp hkeys).2 hi'

theorem tFind_congr {heap heap' : List (Nat × Entry)} {t : List Nat}
    {k : Key} {h : Nat}
    (hsame : ∀ i ∈ t, khOf heap' i = khOf heap i) :
    tFind heap' t k h = tFind heap t k h := by
  induction t with
  | nil => simp [tFind]
  | cons j rest ih =>
    have hj := hsame j (by simp)
    have hrest : ∀ i ∈ rest, khOf heap' i = khOf heap i :=
      fun i hi => hsame i (List.mem_cons_of_mem _ hi)
    cases hg : hGet heap j with
    | some e =>
      cases hg' : hGet heap' j with
      | some e' =>
        have hkh : (e'.key, e'.hash) = (e.key, e.hash) := by
          have h1 : khOf heap' j = some (e'.key, e'.hash) := by simp [khOf, hg']
          have h2 : khOf heap j = some (e.key, e.hash) := by simp [khOf, hg]
          rw [h1, h2] at hj
          exact Option.some_inj.mp hj
        rw [Prod.mk.injEq] at hkh
        obtain ⟨hkey, hhash⟩ := hkh
        simp only [tFind, hg, hg', hkey, hhash]
        by_cases hm : e.hash = h ∧ e.key = k
        · rw [if_pos hm, if_pos hm]
        · rw [if_neg hm, if_neg hm]
          exact ih hrest
      | none => simp [khOf, hg, hg'] at hj
    | none =>
      cases hg' : hGet heap' j with
      | some e' => simp [khOf, hg, hg'] at hj
      | none =>
        simp only [tFind, hg, hg']
        exact ih hrest

/-! ### Table-replacement lemmas -/

theorem replaceId_mem_of_ne {t : List Nat} {i old : Nat} (new : Nat)
    (hi : i ∈ t) (hne : i ≠ old) : i ∈ replaceId t old new := by
  simp only [replaceId, List.mem_map]
  exact ⟨i, hi, by simp [hne]⟩

theorem replaceId_mem_new {t : List Nat} {old : Nat} (new : Nat)
    (hold : old ∈ t) : new ∈ replaceId t old new := by
  simp only [replaceId, List.mem_map]
  exact ⟨old, hold, by simp⟩

theorem mem_replaceId {t : List Nat} {i old new : Nat}
    (hi : i ∈ replaceId t old new) : i = new ∨ (i ∈ t ∧ i ≠ old) := by
  simp only [replaceId, List.mem_map] at hi
  obtain ⟨j, hj, hij⟩ := hi
  by_cases hjo : j = old
  · subst hjo
    simp at hij
    left
    exact hij.symm
  · rw [if_neg hjo] at hij
    subst hij
    right
    exact ⟨hj, hjo⟩

theorem replaceId_nodup {t : List Nat} {old new : Nat}
    (hn : t.Nodup) (hnew : new ∉ t) : (replaceId t old new).Nodup := by
  induction t with
  | nil => simp [replaceId]
  | cons j rest ih =>
    rw [List.nodup_cons] at hn
    have hnew' : new ∉ rest := fun hr => hnew (List.mem_cons_of_mem _ hr)
    have hstep : replaceId (j :: rest) old new =
        (if j = old then new else j) :: replaceId rest old new := rfl
    rw [hstep]
    refine List.nodup_cons.mpr ⟨?_, ih hn.2 hnew'⟩
    intro hmem
    simp only [replaceId, List.mem_map] at hmem
    obtain ⟨x, hx, hxe⟩ := hmem
    by_cases hjo : j = old
    · rw [if_pos hjo] at hxe
      by_cases hxo : x = old
      · exact hn.1 (by rw [hjo, ← hxo]; exact hx)
      · rw [if_neg hxo] at hxe
        subst hxe
        subst hjo
        exact hnew' hx
    · rw [if_neg hjo] at hxe
      by_cases hxo : x = old
      · rw [if_pos hxo] at hxe
        exact hnew (hxe ▸ List.mem_cons_self j rest)
      · rw [if_neg hxo] at hxe
        subst hxe
        exact hn.1 hx

theorem replaceId_not_mem {t : List Nat} {old new : Nat}
    (hne : old ≠ new) : old ∉ replaceId t old new := by
  intro hmem
  rcases mem_replaceId hmem with heq | ⟨_, h⟩
  · exact hne heq
  · exact h rfl

theorem replaceId_pairwise {P : Nat → Nat → Prop} {t : List Nat} {old new : Nat}
    (hp : t.Pairwise P)
    (h₁ : ∀ j, P old j → P new j) (h₂ : ∀ j, P j old → P j new)
    (h₃ : P old old → P new new) :
    (replaceId t old new).Pairwise P := by
  rw [replaceId, List.pairwise_map]
  refine hp.imp_of_mem ?_
  intro a b _ _ hab
  by_cases ha : a = old <;> by_cases hb : b = old
  · subst ha
    rw [if_pos rfl, if_pos hb]
    exact h₃ (hb ▸ hab)
  · subst ha
    rw [if_pos rfl, if_neg hb]
    exact h₁ b hab
  · subst hb
    rw [if_neg ha, if_pos rfl]
    exact h₂ a hab
  · rw [if_neg ha, if_neg hb]
    exact hab

/-! ### Membership and key/hash-preservation lemmas -/

theorem mem_hSet {l : List (Nat × Entry)} {i : Nat} {e : Entry} {p : Nat × Entry}
    (h : p ∈ hSet l i e) : p ∈ l ∨ p = (i, e) := by
  induction l with
  | nil => simp [hSet] at h
  | cons q t ih =>
    obtain ⟨j, f⟩ := q
    by_cases hj : j = i
    · simp only [hSet, if_pos hj, List.mem_cons] at h
      rcases h with rfl | h
      · right
        rfl
      · left
        exact List.mem_cons_of_mem _ h
    · simp only [hSet, if_neg hj, List.mem_cons] at h
      rcases h with rfl | h
      · left
        exact List.mem_cons_self _ _
      · rcases ih h with h' | h'
        · left
          exact List.mem_cons_of_mem _ h'
        · right
          exact h'

theorem mem_hDel {l : List (Nat × Entry)} {i : Nat} {p : Nat × Entry}
    (h : p ∈ hDel l i) : p ∈ l := by
  induction l with
  | nil => simp [hDel] at h
  | cons q t ih =>
    obtain ⟨j, f⟩ := q
    by_cases hj : j = i
    · simp only [hDel, if_pos hj] at h
      exact List.mem_cons_of_mem _ h
    · simp only [hDel, if_neg hj, List.mem_cons] at h
      rcases h with rfl | h
      · exact List.mem_cons_self _ _
      · exact List.mem_cons_of_mem _ (ih h)

theorem khOf_hSet {heap : List (Nat × Entry)} {i : Nat} {f e : Entry}
    (hf : hGet heap i = some f) (hk : e.key = f.key) (hh : e.hash = f.hash) :
    ∀ j, khOf (hSet heap i e) j = khOf heap j := by
  intro j
  by_cases hj : j = i
  · subst hj
    rw [khOf, khOf, hGet_hSet_self hf e, hf]
    simp [hk, hh]
  · rw [khOf, khOf, hGet_hSet_ne heap i j e hj]

theorem khOf_hDel_ne (heap : List (Nat × Entry)) (i j : Nat) (h : j ≠ i) :
    khOf (hDel heap i) j = khOf heap j := by
  rw [khOf, khOf, hGet_hDel_ne heap i j h]

theorem khOf_append_left {heap : List (Nat × Entry)} {j : Nat}
    (h : hGet heap j ≠ none) (l : List (Nat × Entry)) :
    khOf (heap ++ l) j = khOf heap j := by
  cases he : hGet heap j with
  | none => exact absurd he h
  | some e => rw [khOf, khOf, hGet_append_left he, he]

/-! ### `Unref` characterization -/

theorem unref_none {s : Shard} {i : Nat} (h : hGet s.heap i = none) :
    unref s i = s := by
  simp [unref, h]

theorem unref_free {s : Shard} {i : Nat} {e : Entry}
    (h : hGet s.heap i = some e) (hr : e.refs - 1 = 0) :
    unref s i =
      { s with
        usage := (s.usage + (W64 - e.charge)) % W64
        heap := hDel s.heap i
        freed := s.freed ++ [(i, e.key, e.value)] } := by
  simp [unref, h, hr]

theorem unref_keep {s : Shard} {i : Nat} {e : Entry}
    (h : hGet s.heap i = some e) (hr : e.refs - 1 ≠ 0) :
    unref s i = { s with heap := hSet s.heap i { e with refs := e.refs - 1 } } := by
  simp [unref, h, hr]

theorem unref_capacity (s : Shard) (i : Nat) : (unref s i).capacity = s.capacity := by
  unfold unref
  cases hGet s.heap i with
  | none => rfl
  | some e =>
    dsimp only
    split <;> rfl

theorem unref_table (s : Shard) (i : Nat) : (unref s i).table = s.table := by
  unfold unref
  cases hGet s.heap i with
  | none => rfl
  | some e =>
    dsimp only
    split <;> rfl

theorem unref_ring (s : Shard) (i : Nat) : (unref s i).ring = s.ring := by
  unfold unref
  cases hGet s.heap i with
  | none => rfl
  | some e =>
    dsimp only
    split <;> rfl

theorem unref_nextId (s : Shard) (i : Nat) : (unref s i).nextId = s.nextId := by
  unfold unref
  cases hGet s.heap i with
  | none => rfl
  | some e =>
    dsimp only
    split <;> rfl

theorem unref_handles (s : Shard) (i : Nat) : (unref s i).handles = s.handles := by
  unfold unref
  cases hGet s.heap i with
  | none => rfl
  | some e =>
    dsimp only
    split <;> rfl

theorem unref_created (s : Shard) (i : Nat) : (unref s i).created = s.created := by
  unfold unref
  cases hGet s.heap i with
  | none => rfl
  | some e =>
    dsimp only
    split <;> rfl

theorem unref_evicted (s : Shard) (i : Nat) : (unref s i).evicted = s.evicted := by
  unfold unref
  cases hGet s.heap i with
  | none => rfl
  | some e =>
    dsimp only
    split <;> rfl

/-! ### Invariant preservation -/

theorem wf_mkShard (cap : Nat) : WF (mkShard cap) := by
  constructor <;> simp [mkShard, chargeSum, W64, hGet, cGet]

theorem usage_mod_sub {u S' c : Nat} (hc : c < W64)
    (hu : u = (S' + c) % W64) : (u + (W64 - c)) % W64 = S' % W64 := by
  subst hu
  rw [Nat.mod_add_mod]
  have hstep : S' + c + (W64 - c) = S' + W64 := by omega
  rw [hstep, Nat.add_mod_right]

theorem fst_ne_of_mem_hDel {l : List (Nat × Entry)} {i : Nat} {p : Nat × Entry}
    (hn : (l.map Prod.fst).Nodup) (hp : p ∈ hDel l i) : p.1 ≠ i := by
  have hmem : p.1 ∈ (hDel l i).map Prod.fst := List.mem_map_of_mem Prod.fst hp
  rw [fst_hDel] at hmem
  exact (hn.mem_erase_iff.mp hmem).1

theorem wf_handles_perm {s : Shard} (w : WF s) {h' : List Nat}
    (hp : s.handles.Perm h') : WF { s with handles := h' } := by
  refine ⟨w.usageEq, w.chargeLt, w.heapNodup, w.heapLt, w.tableNodup, w.ringNodup,
    w.tableAlive, w.ringTable, w.tableKeys, ?_, ?_, ?_, w.freedNodup, w.freedDead,
    w.freedLt, w.createdVal, w.createdLt, w.evictedLt, w.evictedRing⟩
  · intro j hj
    exact w.handlesAlive j (hp.mem_iff.mpr hj)
  · intro j f hf
    rw [List.Perm.count_eq hp.symm]
    exact w.refsEq j f hf
  · intro p hpm
    rcases w.aliveRef p hpm with hT | hH
    · exact Or.inl hT
    · exact Or.inr (hp.mem_iff.mp hH)

theorem unref_handles_param (s : Shard) (i : Nat) (h' : List Nat) :
    unref { s with handles := h' } i = { unref s i with handles := h' } := by
  unfold unref
  dsimp only
  cases hGet s.heap i with
  | none => rfl
  | some e =>
    dsimp only
    split <;> rfl

theorem wf_release_core {s : Shard} {i : Nat} (w : WF s) (hi : i ∈ s.handles) :
    WF { unref s i with handles := s.handles.erase i } := by
  cases hgi : hGet s.heap i with
  | none => exact absurd hgi (w.handlesAlive i hi)
  | some e =>
    have hmem : (i, e) ∈ s.heap := mem_of_hGet hgi
    have hcnt : 0 < s.handles.count i := List.count_pos_iff.mpr hi
    have hre := w.refsEq i e hgi
    by_cases hz : e.refs - 1 = 0
    · have hbit : i ∉ s.table := by
        intro hT
        rw [if_pos hT] at hre
        omega
      have hcone : s.handles.count i = 1 := by
        rw [if_neg hbit] at hre
        omega
      have hine : i ∉ s.handles.erase i := by
        intro hmem'
        have := List.count_erase_self i s.handles
        have h2 : 0 < (s.handles.erase i).count i := List.count_pos_iff.mpr hmem'
        omega
      rw [unref_free hgi hz]
      refine ⟨?_, ?_, ?_, ?_, w.tableNodup, w.ringNodup, ?_, w.ringTable, ?_, ?_,
        ?_, ?_, ?_, ?_, ?_, ?_, w.createdLt, w.evictedLt, w.evictedRing⟩
      · dsimp only
        exact usage_mod_sub (w.chargeLt (i, e) hmem)
          (by rw [w.usageEq, chargeSum_hDel hgi])
      · exact fun p hp => w.chargeLt p (mem_hDel hp)
      · dsimp only
        rw [fst_hDel]
        exact w.heapNodup.erase i
      · exact fun p hp => w.heapLt p (mem_hDel hp)
      · intro j hj
        dsimp only
        have hji : j ≠ i := fun hje => hbit (hje ▸ hj)
        rw [hGet_hDel_ne s.heap i j hji]
        exact w.tableAlive j hj
      · refine w.tableKeys.imp_of_mem ?_
        intro a b ha hb hab p q hp hq
        have hai : a ≠ i := fun hae => hbit (hae ▸ ha)
        have hbi : b ≠ i := fun hbe => hbit (hbe ▸ hb)
        rw [khOf_hDel_ne s.heap i a hai] at hp
        rw [khOf_hDel_ne s.heap i b hbi] at hq
        exact hab p q hp hq
      · intro j hj
        dsimp only at hj ⊢
        have hji : j ≠ i := fun hje => hine (hje ▸ hj)
        rw [hGet_hDel_ne s.heap i j hji]
        exact w.handlesAlive j ((List.erase_sublist i s.handles).mem hj)
      · intro j f hf
        dsimp only at hf ⊢
        have hji : j ≠ i := by
          intro hje
          rw [hje, hGet_hDel_self w.heapNodup] at hf
          cases hf
        rw [hGet_hDel_ne s.heap i j hji] at hf
        rw [List.count_erase_of_ne hji]
        exact w.refsEq j f hf
      · intro p hp
        dsimp only at hp ⊢
        have hpi : p.1 ≠ i := fst_ne_of_mem_hDel w.heapNodup hp
        rcases w.aliveRef p (mem_hDel hp) with hT | hH
        · exact Or.inl hT
        · exact Or.inr (List.mem_erase_of_ne hpi |>.mpr hH)
      · dsimp only
        rw [List.map_append]
        refine List.Nodup.append w.freedNodup (by simp) ?_
        intro a ha hb
        simp at hb
        subst hb
        simp only [List.mem_map] at ha
        obtain ⟨x, hx, hxa⟩ := ha
        have := w.freedDead x hx
        rw [hxa, hgi] at this
        cases this
      · intro x hx
        dsimp only at hx ⊢
        rcases List.mem_append.mp hx with hx' | hx'
        · have hd := w.freedDead x hx'
          have hxi : x.1 ≠ i := by
            intro hxe
            rw [hxe, hgi] at hd
            cases hd
          rw [hGet_hDel_ne s.heap i x.1 hxi]
          exact hd
        · simp at hx'
          subst hx'
          exact hGet_hDel_self w.heapNodup
      · intro x hx
        dsimp only at hx
        rcases List.mem_append.mp hx with hx' | hx'
        · exact w.freedLt x hx'
        · simp at hx'
          subst hx'
          exact w.heapLt (i, e) hmem
      · intro j f hf
        dsimp only at hf ⊢
        have hji : j ≠ i := by
          intro hje
          rw [hje, hGet_hDel_self w.heapNodup] at hf
          cases hf
        rw [hGet_hDel_ne s.heap i j hji] at hf
        exact w.createdVal j f hf
    · rw [unref_keep hgi hz]
      have hgeti := hGet_hSet_self hgi { e with refs := e.refs - 1 }
      have hgets : ∀ j, j ≠ i →
          hGet (hSet s.heap i { e with refs := e.refs - 1 }) j = hGet s.heap j :=
        fun j hj => hGet_hSet_ne s.heap i j _ hj
      refine ⟨?_, ?_, ?_, ?_, w.tableNodup, w.ringNodup, ?_, w.ringTable, ?_, ?_,
        ?_, ?_, w.freedNodup, ?_, w.freedLt, ?_, w.createdLt, w.evictedLt,
        w.evictedRing⟩
      · dsimp only
        rw [@chargeSum_hSet s.heap i e { e with refs := e.refs - 1 } hgi rfl]
        exact w.usageEq
      · intro p hp
        rcases mem_hSet hp with hp' | rfl
        · exact w.chargeLt p hp'
        · exact w.chargeLt (i, e) hmem
      · dsimp only
        rw [fst_hSet]
        exact w.heapNodup
      · intro p hp
        rcases mem_hSet hp with hp' | rfl
        · exact w.heapLt p hp'
        · exact w.heapLt (i, e) hmem
      · intro j hj
        dsimp only
        by_cases hji : j = i
        · rw [hji, hgeti]
          simp
        · rw [hgets j hji]
          exact w.tableAlive j hj
      · refine w.tableKeys.imp ?_
        intro a b hab p q hp hq
        dsimp only at hp hq
        rw [@khOf_hSet s.heap i e { e with refs := e.refs - 1 } hgi rfl rfl a] at hp
        rw [@khOf_hSet s.heap i e { e with refs := e.refs - 1 } hgi rfl rfl b] at hq
        exact hab p q hp hq
      · intro j hj
        dsimp only at hj ⊢
        by_cases hji : j = i
        · rw [hji, hgeti]
          simp
        · rw [hgets j hji]
          exact w.handlesAlive j ((List.erase_sublist i s.handles).mem hj)
      · intro j f hf
        dsimp only at hf ⊢
        by_cases hji : j = i
        · rw [hji] at hf ⊢
          rw [hgeti] at hf
          cases hf
          rw [List.count_erase_self]
          dsimp only
          omega
        · rw [hgets j hji] at hf
          rw [List.count_erase_of_ne hji]
          exact w.refsEq j f hf
      · intro p hp
        dsimp only at hp ⊢
        by_cases hpi : p.1 = i
        · rw [hpi]
          by_cases hT : i ∈ s.table
          · exact Or.inl hT
          · refine Or.inr (List.count_pos_iff.mp ?_)
            rw [if_neg hT] at hre
            have := List.count_erase_self i s.handles
            omega
        · rcases mem_hSet hp with hp' | rfl
          · rcases w.aliveRef p hp' with hT | hH
            · exact Or.inl hT
            · exact Or.inr (List.mem_erase_of_ne hpi |>.mpr hH)
          · exact absurd rfl hpi
      · intro x hx
        dsimp only at hx ⊢
        have hd := w.freedDead x hx
        have hxi : x.1 ≠ i := by
          intro hxe
          rw [hxe, hgi] at hd
          cases hd
        rw [hgets x.1 hxi]
        exact hd
      · intro j f hf
        dsimp only at hf ⊢
        by_cases hji : j = i
        · rw [hji] at hf ⊢
          rw [hgeti] at hf
          cases hf
          simpa using w.createdVal i e hgi
        · rw [hgets j hji] at hf
          exact w.createdVal j f hf

theorem wf_release (s : Shard) (i : Nat) (w : WF s) (hi : i ∈ s.handles) :
    WF (release s i) :=
  wf_release_core w hi

theorem wf_detached_unref {s₁ : Shard} {i : Nat}
    (w : WF { s₁ with handles := s₁.handles ++ [i] }) : WF (unref s₁ i) := by
  have hmem : i ∈ s₁.handles ++ [i] := List.mem_append_right _ (by simp)
  have h1 := wf_release_core w hmem
  dsimp only at h1
  rw [unref_handles_param] at h1
  have hperm : ((s₁.handles ++ [i]).erase i).Perm s₁.handles := by
    rw [List.perm_iff_count]
    intro a
    by_cases ha : a = i
    · subst ha
      rw [List.count_erase_self, List.count_append]
      simp
    · rw [List.count_erase_of_ne ha, List.count_append]
      simp [ha]
  have h2 := wf_handles_perm h1 hperm
  have hfin : ({ unref s₁ i with handles := s₁.handles } : Shard) = unref s₁ i := by
    rw [← unref_handles s₁ i]
  rw [← hfin]
  exact h2

theorem wf_drop (s : Shard) (i : Nat) (w : WF s) (hi : i ∈ s.table) :
    WF { s with table := s.table.erase i, ring := s.ring.erase i,
                handles := s.handles ++ [i] } := by
  have halive := w.tableAlive i hi
  refine ⟨w.usageEq, w.chargeLt, w.heapNodup, w.heapLt, ?_, ?_, ?_, ?_, ?_, ?_,
    ?_, ?_, w.freedNodup, w.freedDead, w.freedLt, w.createdVal, w.createdLt,
    w.evictedLt, ?_⟩
  · exact w.tableNodup.erase i
  · exact w.ringNodup.erase i
  · intro j hj
    exact w.tableAlive j ((List.erase_sublist i s.table).mem hj)
  · intro j
    dsimp only
    rw [w.ringNodup.mem_erase_iff, w.tableNodup.mem_erase_iff, w.ringTable j]
  · exact w.tableKeys.sublist (List.erase_sublist i s.table)
  · intro j hj
    rcases List.mem_append.mp hj with hj' | hj'
    · exact w.handlesAlive j hj'
    · simp at hj'
      subst hj'
      exact halive
  · intro j f hf
    dsimp only at hf ⊢
    have hre := w.refsEq j f hf
    by_cases hji : j = i
    · subst hji
      rw [if_pos hi] at hre
      rw [if_neg w.tableNodup.not_mem_erase, List.count_append]
      simp
      omega
    · rw [List.count_append]
      have htb : j ∈ s.table.erase i ↔ j ∈ s.table := by
        rw [w.tableNodup.mem_erase_iff]
        simp [hji]
      by_cases hT : j ∈ s.table
      · rw [if_pos (htb.mpr hT)]
        rw [if_pos hT] at hre
        simp [hji, hre]
      · rw [if_neg (fun hmem => hT (htb.mp hmem))]
        rw [if_neg hT] at hre
        simp [hji, hre]
  · intro p hp
    dsimp only
    by_cases hpi : p.1 = i
    · exact Or.inr (List.mem_append_right _ (by simp [hpi]))
    · rcases w.aliveRef p hp with hT | hH
      · refine Or.inl ?_
        rw [w.tableNodup.mem_erase_iff]
        exact ⟨hpi, hT⟩
      · exact Or.inr (List.mem_append_left _ hH)
  · intro j hj
    dsimp only
    intro hmem
    exact w.evictedRing j hj ((List.erase_sublist i s.ring).mem hmem)

theorem wf_evicted_append (s : Shard) (i : Nat) (w : WF s)
    (hlt : i < s.nextId) (hnr : i ∉ s.ring) :
    WF { s with evicted := s.evicted ++ [i] } := by
  refine ⟨w.usageEq, w.chargeLt, w.heapNodup, w.heapLt, w.tableNodup, w.ringNodup,
    w.tableAlive, w.ringTable, w.tableKeys, w.handlesAlive, w.refsEq, w.aliveRef,
    w.freedNodup, w.freedDead, w.freedLt, w.createdVal, w.createdLt, ?_, ?_⟩
  · intro j hj
    rcases List.mem_append.mp hj with hj' | hj'
    · exact w.evictedLt j hj'
    · simp at hj'
      subst hj'
      exact hlt
  · intro j hj
    rcases List.mem_append.mp hj with hj' | hj'
    · exact w.evictedRing j hj'
    · simp at hj'
      subst hj'
      exact hnr

theorem wf_erase (s : Shard) (k : Key) (h : Nat) (w : WF s) : WF (erase s k h) := by
  unfold erase
  cases hf : tFind s.heap s.table k h with
  | none => exact w
  | some i =>
    have hi : i ∈ s.table := tFind_mem hf
    dsimp only
    exact wf_detached_unref (wf_drop s i w hi)

theorem wf_evictOnce {s s' : Shard} (w : WF s) (heq : evictOnce s = some s') :
    WF s' := by
  unfold evictOnce at heq
  by_cases hcap : s.capacity < s.usage
  · rw [if_pos hcap] at heq
    cases hr : s.ring with
    | nil =>
      rw [hr] at heq
      cases heq
    | cons old rest =>
      rw [hr] at heq
      dsimp only at heq
      cases hg : hGet s.heap old with
      | none =>
        rw [hg] at heq
        cases heq
      | some e =>
        rw [hg] at heq
        dsimp only at heq
        have holdr : old ∈ s.ring := by
          rw [hr]
          exact List.mem_cons_self _ _
        have holdT : old ∈ s.table := (w.ringTable old).mp holdr
        have hfind : tFind s.heap s.table e.key e.hash = some old :=
          tFind_unique w.tableKeys holdT hg
        rw [hfind] at heq
        dsimp only at heq
        have hrest : rest = s.ring.erase old := by
          rw [hr, List.erase_cons_head]
        have w2 : WF { s with table := s.table.erase old, ring := rest, handles := s.handles ++ [old] } := by
          rw [hrest]
          exact wf_drop s old w holdT
        have w3 : WF (unref { s with table := s.table.erase old, ring := rest } old) :=
          wf_detached_unref w2
        have hlt : old < s.nextId :=
          w.heapLt (old, e) (mem_of_hGet hg)
        have hnr : old ∉ rest := by
          have := w.ringNodup
          rw [hr] at this
          exact (List.nodup_cons.mp this).1
        obtain rfl : _ = s' := Option.some_inj.mp heq
        refine wf_evicted_append _ old w3 ?_ ?_
        · rw [unref_nextId]
          exact hlt
        · rw [unref_ring]
          exact hnr
  · rw [if_neg hcap] at heq
    cases heq

theorem wf_evictN : ∀ (n : Nat) (s : Shard), WF s → WF (evictN n s)
  | 0, s, w => w
  | n + 1, s, w => by
    unfold evictN
    cases heq : evictOnce s with
    | none => exact w
    | some s' => exact wf_evictN n s' (wf_evictOnce w heq)

theorem wf_evict (s : Shard) (w : WF s) : WF (evict s) :=
  wf_evictN s.ring.length s w

theorem wf_insert (s : Shard) (k : Key) (h v c : Nat) (w : WF s) :
    WF (insert s k h v c).2 := by
  have hW64 : 0 < W64 := by norm_num [W64]
  have hfresh : hGet s.heap s.nextId = none := by
    cases hg : hGet s.heap s.nextId with
    | none => rfl
    | some e => exact absurd (w.heapLt _ (mem_of_hGet hg)) (lt_irrefl s.nextId)
  have hiT : s.nextId ∉ s.table := fun hT => w.tableAlive _ hT hfresh
  have hiR : s.nextId ∉ s.ring := fun hR => hiT ((w.ringTable _).mp hR)
  have hiH : s.nextId ∉ s.handles := fun hH => w.handlesAlive _ hH hfresh
  have hiM : s.nextId ∉ s.heap.map Prod.fst := not_mem_of_hGet_none hfresh
  set i := s.nextId with hidef
  set e0 : Entry := { key := k, hash := h, value := v, charge := c % W64, refs := 2 }
    with he0
  set heap1 := s.heap ++ [(i, e0)] with hheap1
  have hget1i : hGet heap1 i = some e0 := by
    rw [hheap1, hGet_append_right hfresh]
    simp [hGet]
  have hget1 : ∀ j, j ≠ i → hGet heap1 j = hGet s.heap j := by
    intro j hj
    rw [hheap1, hGet_append]
    cases hgj : hGet s.heap j with
    | some f => rfl
    | none => simp [hGet, Ne.symm hj]
  have khOf1 : ∀ j, j ≠ i → khOf heap1 j = khOf s.heap j := by
    intro j hj
    rw [khOf, khOf, hget1 j hj]
  have khOf1i : khOf heap1 i = some (k, h) := by
    simp [khOf, hget1i, he0]
  have htne : ∀ j ∈ s.table, j ≠ i :=
    fun j hj hje => w.tableAlive j hj (hje ▸ hfresh)
  have khOfT : ∀ j ∈ s.table, khOf heap1 j = khOf s.heap j :=
    fun j hj => khOf1 j (htne j hj)
  have husage : (s.usage + c % W64) % W64 = chargeSum heap1 % W64 := by
    rw [hheap1, chargeSum_append, w.usageEq]
    have hsingle : chargeSum [(i, e0)] = c % W64 := by
      simp [chargeSum, he0]
    rw [hsingle, Nat.mod_add_mod]
  have hnodup1 : (heap1.map Prod.fst).Nodup := by
    rw [hheap1, List.map_append]
    refine List.Nodup.append w.heapNodup (by simp) ?_
    intro a ha hb
    simp at hb
    subst hb
    exact hiM ha
  have hchargeLt1 : ∀ p ∈ heap1, p.2.charge < W64 := by
    intro p hp
    rcases List.mem_append.mp hp with hp' | hp'
    · exact w.chargeLt p hp'
    · simp at hp'
      subst hp'
      exact Nat.mod_lt c hW64
  have hlt1 : ∀ p ∈ heap1, p.1 < i + 1 := by
    intro p hp
    rcases List.mem_append.mp hp with hp' | hp'
    · exact Nat.lt_succ_of_lt (w.heapLt p hp')
    · simp at hp'
      subst hp'
      exact Nat.lt_succ_self i
  have hcget : ∀ j, j ≠ i →
      cGet (s.created ++ [(i, (k, h, v, c % W64))]) j = cGet s.created j := by
    intro j hj
    rw [cGet_append]
    cases hgj : cGet s.created j with
    | some x => rfl
    | none => simp [cGet, Ne.symm hj]
  have hcgeti : cGet (s.created ++ [(i, (k, h, v, c % W64))]) i = some (k, h, v, c % W64) := by
    rw [cGet_append]
    have : cGet s.created i = none :=
      cGet_eq_none (fun x hx => Nat.ne_of_lt (w.createdLt x hx))
    rw [this]
    simp [cGet]
  have hcreatedVal1 : ∀ j f, hGet heap1 j = some f →
      cGet (s.created ++ [(i, (k, h, v, c % W64))]) j =
        some (f.key, f.hash, f.value, f.charge) := by
    intro j f hf
    by_cases hj : j = i
    · subst hj
      rw [hget1i] at hf
      cases hf
      rw [hcgeti, he0]
    · rw [hget1 j hj] at hf
      rw [hcget j hj]
      exact w.createdVal j f hf
  have hcreatedLt1 : ∀ x ∈ s.created ++ [(i, (k, h, v, c % W64))], x.1 < i + 1 := by
    intro x hx
    rcases List.mem_append.mp hx with hx' | hx'
    · exact Nat.lt_succ_of_lt (w.createdLt x hx')
    · simp at hx'
      subst hx'
      exact Nat.lt_succ_self i
  have hfreedD1 : ∀ x ∈ s.freed, hGet heap1 x.1 = none := by
    intro x hx
    rw [hget1 x.1 (Nat.ne_of_lt (w.freedLt x hx))]
    exact w.freedDead x hx
  have hfreedLt1 : ∀ x ∈ s.freed, x.1 < i + 1 :=
    fun x hx => Nat.lt_succ_of_lt (w.freedLt x hx)
  have hevictedLt1 : ∀ j ∈ s.evicted, j < i + 1 :=
    fun j hj => Nat.lt_succ_of_lt (w.evictedLt j hj)
  unfold insert
  dsimp only
  rw [← hidef, ← he0, ← hheap1]
  cases hfind : tFind heap1 s.table k h with
  | none =>
    dsimp only
    refine wf_evict _ ⟨?_, ?_, ?_, ?_, ?_, ?_, ?_, ?_, ?_,
      ?_, ?_, ?_, ?_, ?_, ?_, ?_, ?_, ?_, ?_⟩
    · exact husage
    · exact hchargeLt1
    · exact hnodup1
    · exact hlt1
    · exact List.nodup_cons.mpr ⟨hiT, w.tableNodup⟩
    · refine List.Nodup.append w.ringNodup (by simp) ?_
      intro a ha hb
      simp at hb
      subst hb
      exact hiR ha
    · intro j hj
      rcases List.mem_cons.mp hj with rfl | hj'
      · rw [hget1i]
        simp
      · rw [hget1 j (htne j hj')]
        exact w.tableAlive j hj'
    · intro j
      by_cases hji : j = i
      · subst hji
        simp
      · rw [List.mem_append]
        simp only [List.mem_singleton, hji, or_false, List.mem_cons]
        rw [w.ringTable j]
        simp [hji]
    · refine List.pairwise_cons.mpr ⟨?_, ?_⟩
      · intro j hj p q hp hq
        rw [khOf1i] at hp
        cases hp
        rw [khOfT j hj] at hq
        cases hgq : hGet s.heap j with
        | none => rw [khOf, hgq] at hq; cases hq
        | some f =>
          rw [khOf, hgq] at hq
          simp at hq
          have hnomatch := tFind_none hfind j hj f (by rw [hget1 j (htne j hj)]; exact hgq)
          intro hpq
          rw [← hq] at hpq
          apply hnomatch
          have hk : f.key = k := by
            have := congrArg Prod.fst hpq
            simpa using this.symm
          have hh : f.hash = h := by
            have := congrArg Prod.snd hpq
            simpa using this.symm
          exact ⟨hh, hk⟩
      · refine w.tableKeys.imp_of_mem ?_
        intro a b ha hb hab p q hp hq
        rw [khOfT a ha] at hp
        rw [khOfT b hb] at hq
        exact hab p q hp hq
    · intro j hj
      rcases List.mem_append.mp hj with hj' | hj'
      · rw [hget1 j (fun hje => hiH (hje ▸ hj'))]
        exact w.handlesAlive j hj'
      · simp at hj'
        subst hj'
        rw [hget1i]
        simp
    · intro j f hf
      dsimp only
      by_cases hji : j = i
      · subst hji
        rw [hget1i] at hf
        cases hf
        rw [if_pos (List.mem_cons_self i s.table)]
        rw [List.count_append]
        have hc0 : s.handles.count i = 0 := List.count_eq_zero.mpr hiH
        simp [hc0, he0]
      · rw [hget1 j hji] at hf
        have hre := w.refsEq j f hf
        rw [List.count_append]
        have hbit : j ∈ i :: s.table ↔ j ∈ s.table := by simp [hji]
        by_cases hT : j ∈ s.table
        · rw [if_pos (hbit.mpr hT)]
          rw [if_pos hT] at hre
          simp [hji, hre]
        · rw [if_neg (fun hm => hT (hbit.mp hm))]
          rw [if_neg hT] at hre
          simp [hji, hre]
    · intro p hp
      rcases List.mem_append.mp hp with hp' | hp'
      · rcases w.aliveRef p hp' with hT | hH
        · exact Or.inl (List.mem_cons_of_mem _ hT)
        · exact Or.inr (List.mem_append_left _ hH)
      · simp at hp'
        subst hp'
        exact Or.inl (List.mem_cons_self _ _)
    · exact w.freedNodup
    · exact hfreedD1
    · exact hfreedLt1
    · exact hcreatedVal1
    · exact hcreatedLt1
    · exact hevictedLt1
    · intro j hj
      have hnr := w.evictedRing j hj
      have hji : j ≠ i := Nat.ne_of_lt (w.evictedLt j hj)
      rw [List.mem_append]
      push_neg
      exact ⟨hnr, by simp [hji]⟩
  | some old =>
    dsimp only
    have holdT : old ∈ s.table := tFind_mem hfind
    obtain ⟨f, hgOld1, hfh, hfk⟩ := tFind_spec hfind
    have holdne : old ≠ i := htne old holdT
    have hgOld : hGet s.heap old = some f := by
      rw [← hget1 old holdne]
      exact hgOld1
    have holdR : old ∈ s.ring := (w.ringTable old).mpr holdT
    have hine : i ≠ old := Ne.symm holdne
    have khOfOld : khOf heap1 old = some (k, h) := by
      simp [khOf, hgOld1, hfh, hfk]
    have hrnodup : (s.ring ++ [i]).Nodup := by
      refine List.Nodup.append w.ringNodup (by simp) ?_
      intro a ha hb
      simp at hb
      subst hb
      exact hiR ha
    refine wf_evict _ (wf_detached_unref ?_)
    dsimp only
    refine ⟨?_, ?_, ?_, ?_, ?_, ?_, ?_, ?_, ?_, ?_, ?_, ?_, ?_, ?_, ?_, ?_, ?_, ?_, ?_⟩
    · exact husage
    · exact hchargeLt1
    · exact hnodup1
    · exact hlt1
    · exact replaceId_nodup w.tableNodup hiT
    · exact hrnodup.erase old
    · intro j hj
      rcases mem_replaceId hj with rfl | ⟨hj', hjo⟩
      · rw [hget1i]
        simp
      · rw [hget1 j (htne j hj')]
        exact w.tableAlive j hj'
    · intro j
      rw [hrnodup.mem_erase_iff]
      constructor
      · rintro ⟨hjo, hjm⟩
        rcases List.mem_append.mp hjm with hjr | hji
        · exact replaceId_mem_of_ne i ((w.ringTable j).mp hjr) hjo
        · simp at hji
          subst hji
          exact replaceId_mem_new i holdT
      · intro hj
        rcases mem_replaceId hj with rfl | ⟨hj', hjo⟩
        · exact ⟨hine, List.mem_append_right _ (by simp)⟩
        · exact ⟨hjo, List.mem_append_left _ ((w.ringTable j).mpr hj')⟩
    · refine replaceId_pairwise ?_ ?_ ?_ ?_
      · refine w.tableKeys.imp_of_mem ?_
        intro a b ha hb hab p q hp hq
        rw [khOfT a ha] at hp
        rw [khOfT b hb] at hq
        exact hab p q hp hq
      · intro j hj p q hp hq
        rw [khOf1i] at hp
        cases hp
        exact hj (k, h) q khOfOld hq
      · intro j hj p q hp hq
        rw [khOf1i] at hq
        cases hq
        exact hj p (k, h) hp khOfOld
      · intro hoo
        exact absurd (hoo (k, h) (k, h) khOfOld khOfOld) (by simp)
    · intro j hj
      rcases List.mem_append.mp hj with hj' | hj'
      · rcases List.mem_append.mp hj' with hj'' | hj''
        · rw [hget1 j (fun hje => hiH (hje ▸ hj''))]
          exact w.handlesAlive j hj''
        · simp at hj''
          subst hj''
          rw [hget1i]
          simp
      · simp at hj'
        subst hj'
        rw [hgOld1]
        simp
    · intro j g hg
      dsimp only
      by_cases hji : j = i
      · subst hji
        rw [hget1i] at hg
        cases hg
        rw [if_pos (replaceId_mem_new i holdT)]
        rw [List.count_append, List.count_append]
        have hc0 : s.handles.count i = 0 := List.count_eq_zero.mpr hiH
        simp [hc0, he0, hine]
      · rw [hget1 j hji] at hg
        have hre := w.refsEq j g hg
        rw [List.count_append, List.count_append]
        by_cases hjo : j = old
        · subst hjo
          rw [if_neg (replaceId_not_mem holdne)]
          rw [if_pos holdT] at hre
          simp [holdne, hre]
          omega
        · have hbit : j ∈ replaceId s.table old i ↔ j ∈ s.table := by
            constructor
            · intro hm
              rcases mem_replaceId hm with rfl | ⟨hm', _⟩
              · exact absurd rfl hji
              · exact hm'
            · intro hm
              exact replaceId_mem_of_ne i hm hjo
          by_cases hT : j ∈ s.table
          · rw [if_pos (hbit.mpr hT)]
            rw [if_pos hT] at hre
            simp [hji, hjo, hre]
          · rw [if_neg (fun hm => hT (hbit.mp hm))]
            rw [if_neg hT] at hre
            simp [hji, hjo, hre]
    · intro p hp
      rcases List.mem_append.mp hp with hp' | hp'
      · by_cases hpo : p.1 = old
        · exact Or.inr (List.mem_append_right _ (by simp [hpo]))
        · rcases w.aliveRef p hp' with hT | hH
          · exact Or.inl (replaceId_mem_of_ne i hT hpo)
          · exact Or.inr (List.mem_append_left _ (List.mem_append_left _ hH))
      · simp at hp'
        subst hp'
        exact Or.inl (replaceId_mem_new i holdT)
    · exact w.freedNodup
    · exact hfreedD1
    · exact hfreedLt1
    · exact hcreatedVal1
    · exact hcreatedLt1
    · exact hevictedLt1
    · intro j hj
      have hnr := w.evictedRing j hj
      have hji : j ≠ i := Nat.ne_of_lt (w.evictedLt j hj)
      intro hmem
      have hjm := (List.erase_sublist old (s.ring ++ [i])).mem hmem
      rcases List.mem_append.mp hjm with hjr | hji'
      · exact hnr hjr
      · simp at hji'
        exact hji hji'

theorem evictOnce_frame {s s' : Shard} (heq : evictOnce s = some s') :
    s'.handles = s.handles ∧ s'.created = s.created ∧
    s'.capacity = s.capacity ∧ s'.nextId = s.nextId := by
  unfold evictOnce at heq
  by_cases hcap : s.capacity < s.usage
  · rw [if_pos hcap] at heq
    cases hr : s.ring with
    | nil =>
      rw [hr] at heq
      cases heq
    | cons old rest =>
      rw [hr] at heq
      dsimp only at heq
      cases hg : hGet s.heap old with
      | none =>
        rw [hg] at heq
        cases heq
      | some e =>
        rw [hg] at heq
        dsimp only at heq
        cases hfind : tFind s.heap s.table e.key e.hash with
        | some j =>
          rw [hfind] at heq
          dsimp only at heq
          obtain rfl : _ = s' := Option.some_inj.mp heq
          refine ⟨?_, ?_, ?_, ?_⟩
          · rw [unref_handles]
          · rw [unref_created]
          · rw [unref_capacity]
          · rw [unref_nextId]
        | none =>
          rw [hfind] at heq
          dsimp only at heq
          obtain rfl : _ = s' := Option.some_inj.mp heq
          refine ⟨?_, ?_, ?_, ?_⟩
          · rw [unref_handles]
          · rw [unref_created]
          · rw [unref_capacity]
          · rw [unref_nextId]
  · rw [if_neg hcap] at heq
    cases heq

theorem evictN_frame : ∀ (n : Nat) (s : Shard),
    (evictN n s).handles = s.handles ∧ (evictN n s).created = s.created ∧
    (evictN n s).capacity = s.capacity ∧ (evictN n s).nextId = s.nextId
  | 0, s => ⟨rfl, rfl, rfl, rfl⟩
  | n + 1, s => by
    unfold evictN
    cases heq : evictOnce s with
    | none => exact ⟨rfl, rfl, rfl, rfl⟩
    | some s' =>
      obtain ⟨h1, h2, h3, h4⟩ := evictOnce_frame heq
      obtain ⟨g1, g2, g3, g4⟩ := evictN_frame n s'
      exact ⟨g1.trans h1, g2.trans h2, g3.trans h3, g4.trans h4⟩

theorem evictN_handles (n : Nat) (s : Shard) : (evictN n s).handles = s.handles :=
  (evictN_frame n s).1

theorem evictN_created (n : Nat) (s : Shard) : (evictN n s).created = s.created :=
  (evictN_frame n s).2.1

theorem evictN_capacity (n : Nat) (s : Shard) : (evictN n s).capacity = s.capacity :=
  (evictN_frame n s).2.2.1

theorem evictN_nextId (n : Nat) (s : Shard) : (evictN n s).nextId = s.nextId :=
  (evictN_frame n s).2.2.2

theorem insert_ret (s : Shard) (k : Key) (h v c : Nat) :
    (insert s k h v c).1 = s.nextId := rfl

theorem insert_ghost (s : Shard) (k : Key) (h v c : Nat) :
    (insert s k h v c).2.handles = s.handles ++ [s.nextId] ∧
    (insert s k h v c).2.created = s.created ++ [(s.nextId, (k, h, v, c % W64))] ∧
    (insert s k h v c).2.capacity = s.capacity ∧
    (insert s k h v c).2.nextId = s.nextId + 1 := by
  unfold insert
  dsimp only
  cases hfind : tFind (s.heap ++ [(s.nextId,
      { key := k, hash := h, value := v, charge := c % W64, refs := 2 })])
      s.table k h with
  | none =>
    dsimp only
    rw [evict, evictN_handles, evictN_created, evictN_capacity, evictN_nextId]
    exact ⟨rfl, rfl, rfl, rfl⟩
  | some old =>
    dsimp only
    rw [evict, evictN_handles, evictN_created, evictN_capacity, evictN_nextId,
      unref_handles, unref_created, unref_capacity, unref_nextId]
    exact ⟨rfl, rfl, rfl, rfl⟩

theorem lookup_frame (s : Shard) (k : Key) (h : Nat) :
    (lookup s k h).2.capacity = s.capacity ∧
    (lookup s k h).2.created = s.created ∧
    (lookup s k h).2.freed = s.freed ∧
    (lookup s k h).2.nextId = s.nextId ∧
    (lookup s k h).2.evicted = s.evicted ∧
    (lookup s k h).2.table = s.table ∧
    (lookup s k h).2.usage = s.usage := by
  unfold lookup
  cases hf : tFind s.heap s.table k h with
  | none => exact ⟨rfl, rfl, rfl, rfl, rfl, rfl, rfl⟩
  | some i =>
    dsimp only
    cases hg : hGet s.heap i with
    | none => exact ⟨rfl, rfl, rfl, rfl, rfl, rfl, rfl⟩
    | some e => exact ⟨rfl, rfl, rfl, rfl, rfl, rfl, rfl⟩

theorem release_frame (s : Shard) (i : Nat) :
    (release s i).capacity = s.capacity ∧
    (release s i).table = s.table ∧
    (release s i).ring = s.ring ∧
    (release s i).nextId = s.nextId ∧
    (release s i).created = s.created ∧
    (release s i).evicted = s.evicted ∧
    (release s i).handles = s.handles.erase i := by
  unfold release
  dsimp only
  exact ⟨unref_capacity s i, unref_table s i, unref_ring s i, unref_nextId s i,
    unref_created s i, unref_evicted s i, rfl⟩

theorem erase_frame (s : Shard) (k : Key) (h : Nat) :
    (erase s k h).capacity = s.capacity ∧
    (erase s k h).handles = s.handles ∧
    (erase s k h).created = s.created ∧
    (erase s k h).nextId = s.nextId ∧
    (erase s k h).evicted = s.evicted := by
  unfold erase
  cases hf : tFind s.heap s.table k h with
  | none => exact ⟨rfl, rfl, rfl, rfl, rfl⟩
  | some i =>
    dsimp only
    exact ⟨unref_capacity _ i, unref_handles _ i, unref_created _ i,
      unref_nextId _ i, unref_evicted _ i⟩

theorem wf_lookup (s : Shard) (k : Key) (h : Nat) (w : WF s) :
    WF (lookup s k h).2 := by
  unfold lookup
  cases hf : tFind s.heap s.table k h with
  | none => exact w
  | some i =>
    obtain ⟨e, he, hh, hk⟩ := tFind_spec hf
    have hit : i ∈ s.table := tFind_mem hf
    have hir : i ∈ s.ring := (w.ringTable i).mpr hit
    have hmem : (i, e) ∈ s.heap := mem_of_hGet he
    dsimp only
    rw [he]
    dsimp only
    set e' : Entry := { e with refs := e.refs + 1 } with he'
    have hkh : ∀ j, khOf (hSet s.heap i e') j = khOf s.heap j :=
      khOf_hSet he rfl rfl
    have hgets : ∀ j, j ≠ i → hGet (hSet s.heap i e') j = hGet s.heap j :=
      fun j hj => hGet_hSet_ne s.heap i j e' hj
    have hgeti : hGet (hSet s.heap i e') i = some e' := hGet_hSet_self he e'
    refine ⟨?_, ?_, ?_, ?_, ?_, ?_, ?_, ?_, ?_, ?_, ?_, ?_, ?_, ?_, ?_, ?_, ?_, ?_, ?_⟩
    · dsimp only
      rw [@chargeSum_hSet s.heap i e e' he rfl]
      exact w.usageEq
    · intro p hp
      rcases mem_hSet hp with hp' | rfl
      · exact w.chargeLt p hp'
      · exact w.chargeLt (i, e) hmem
    · rw [fst_hSet]
      exact w.heapNodup
    · intro p hp
      rcases mem_hSet hp with hp' | rfl
      · exact w.heapLt p hp'
      · exact w.heapLt (i, e) hmem
    · exact w.tableNodup
    · refine List.Nodup.append (w.ringNodup.erase i) (List.nodup_singleton i) ?_
      intro a ha hb
      simp at hb
      subst hb
      exact w.ringNodup.not_mem_erase ha
    · intro j hj
      by_cases hji : j = i
      · subst hji
        rw [hgeti]
        simp
      · rw [hgets j hji]
        exact w.tableAlive j hj
    · intro j
      by_cases hji : j = i
      · subst hji
        simp [hit]
      · rw [List.mem_append]
        simp only [List.mem_singleton, hji, or_false]
        rw [w.ringNodup.mem_erase_iff]
        simp [hji, w.ringTable j]
    · refine w.tableKeys.imp ?_
      intro a b hab p q hp hq
      rw [hkh a] at hp
      rw [hkh b] at hq
      exact hab p q hp hq
    · intro j hj
      rcases List.mem_append.mp hj with hj' | hj'
      · by_cases hji : j = i
        · subst hji
          rw [hgeti]
          simp
        · rw [hgets j hji]
          exact w.handlesAlive j hj'
      · simp at hj'
        subst hj'
        rw [hgeti]
        simp
    · intro j f hf'
      dsimp only at hf' ⊢
      by_cases hji : j = i
      · rw [hji] at hf' ⊢
        rw [hgeti] at hf'
        cases hf'
        have hre := w.refsEq i e he
        rw [if_pos hit] at hre
        rw [if_pos hit, List.count_append]
        simp [he', hre]
        omega
      · rw [hgets j hji] at hf'
        have hre := w.refsEq j f hf'
        rw [List.count_append]
        simpa [hji] using hre
    · intro p hp
      rcases mem_hSet hp with hp' | rfl
      · rcases w.aliveRef p hp' with h' | h'
        · exact Or.inl h'
        · exact Or.inr (List.mem_append_left _ h')
      · exact Or.inl hit
    · exact w.freedNodup
    · intro x hx
      have hd := w.freedDead x hx
      have hxi : x.1 ≠ i := fun hxe => by
        rw [hxe, he] at hd
        cases hd
      rw [hgets x.1 hxi]
      exact hd
    · exact w.freedLt
    · intro j f hf'
      dsimp only at hf' ⊢
      by_cases hji : j = i
      · rw [hji] at hf' ⊢
        rw [hgeti] at hf'
        cases hf'
        simpa [he'] using w.createdVal i e he
      · rw [hgets j hji] at hf'
        exact w.createdVal j f hf'
    · exact w.createdLt
    · exact w.evictedLt
    · intro j hj
      have hnr := w.evictedRing j hj
      have hji : j ≠ i := fun hje => hnr (hje ▸ hir)
      rw [List.mem_append]
      push_neg
      constructor
      · intro hjer
        exact hnr (List.erase_sublist i s.ring |>.mem hjer)
      · simp [hji]

theorem wf_reach {s : Shard} (hr : Reach s) : WF s := by
  induction hr with
  | init cap => exact wf_mkShard cap
  | insert k h v c _ ih => exact wf_insert _ k h v c ih
  | lookup k h _ ih => exact wf_lookup _ k h ih
  | release i _ hi ih => exact wf_release _ i ih hi
  | erase k h _ ih => exact wf_erase _ k h ih

theorem evictOnce_shrinks {s s' : Shard} (heq : evictOnce s = some s') :
    (∀ j, j ∉ s.table → j ∉ s'.table) ∧ (∀ j, j ∉ s.ring → j ∉ s'.ring) := by
  unfold evictOnce at heq
  by_cases hcap : s.capacity < s.usage
  · rw [if_pos hcap] at heq
    cases hr : s.ring with
    | nil =>
      rw [hr] at heq
      cases heq
    | cons old rest =>
      rw [hr] at heq
      dsimp only at heq
      cases hg : hGet s.heap old with
      | none =>
        rw [hg] at heq
        cases heq
      | some e =>
        rw [hg] at heq
        dsimp only at heq
        cases hfind : tFind s.heap s.table e.key e.hash with
        | some j =>
          rw [hfind] at heq
          dsimp only at heq
          obtain rfl : _ = s' := Option.some_inj.mp heq
          constructor
          · intro m hm
            rw [unref_table]
            intro hmem
            exact hm ((List.erase_sublist j s.table).mem hmem)
          · intro m hm
            rw [unref_ring]
            intro hmem
            exact hm (hr ▸ List.mem_cons_of_mem old hmem)
        | none =>
          rw [hfind] at heq
          dsimp only at heq
          obtain rfl : _ = s' := Option.some_inj.mp heq
          constructor
          · intro m hm
            rw [unref_table]
            exact hm
          · intro m hm
            rw [unref_ring]
            intro hmem
            exact hm (hr ▸ List.mem_cons_of_mem old hmem)
  · rw [if_neg hcap] at heq
    cases heq

theorem evictN_not_table : ∀ (n : Nat) (s : Shard) (j : Nat),
    j ∉ s.table → j ∉ (evictN n s).table
  | 0, _, _, hj => hj
  | n + 1, s, j, hj => by
    unfold evictN
    cases heq : evictOnce s with
    | none => exact hj
    | some s' => exact evictN_not_table n s' j ((evictOnce_shrinks heq).1 j hj)

theorem evictN_not_ring : ∀ (n : Nat) (s : Shard) (j : Nat),
    j ∉ s.ring → j ∉ (evictN n s).ring
  | 0, _, _, hj => hj
  | n + 1, s, j, hj => by
    unfold evictN
    cases heq : evictOnce s with
    | none => exact hj
    | some s' => exact evictN_not_ring n s' j ((evictOnce_shrinks heq).2 j hj)

/-- `Insert` of a key already resident in the table removes the resident
entry from both the table and the ring before returning. -/
theorem insert_replaces (s : Shard) (k : Key) (h v c : Nat) (w : WF s)
    {i₁ : Nat} {e₁ : Entry} (hi : i₁ ∈ s.table) (he : hGet s.heap i₁ = some e₁)
    (hk : e₁.key = k) (hh : e₁.hash = h) :
    i₁ ∉ (insert s k h v c).2.table ∧ i₁ ∉ (insert s k h v c).2.ring := by
  have hfresh : hGet s.heap s.nextId = none := by
    cases hg : hGet s.heap s.nextId with
    | none => rfl
    | some e => exact absurd (w.heapLt _ (mem_of_hGet hg)) (lt_irrefl s.nextId)
  have hiR : s.nextId ∉ s.ring := fun hR => w.tableAlive _ ((w.ringTable _).mp hR) hfresh
  set i := s.nextId with hidef
  set e0 : Entry := { key := k, hash := h, value := v, charge := c % W64, refs := 2 }
    with he0
  set heap1 := s.heap ++ [(i, e0)] with hheap1
  have hget1 : ∀ j, j ≠ i → hGet heap1 j = hGet s.heap j := by
    intro j hj
    rw [hheap1, hGet_append]
    cases hgj : hGet s.heap j with
    | some f => rfl
    | none => simp [hGet, Ne.symm hj]
  have htne : ∀ j ∈ s.table, j ≠ i :=
    fun j hj hje => w.tableAlive j hj (hje ▸ hfresh)
  have holdne : i₁ ≠ i := htne i₁ hi
  have he1 : hGet heap1 i₁ = some e₁ := by
    rw [hget1 i₁ holdne]
    exact he
  have hkeys1 : s.table.Pairwise
      (fun a b => ∀ p q, khOf heap1 a = some p → khOf heap1 b = some q → p ≠ q) := by
    refine w.tableKeys.imp_of_mem ?_
    intro a b ha hb hab p q hp hq
    rw [khOf, hget1 a (htne a ha)] at hp
    rw [khOf, hget1 b (htne b hb)] at hq
    exact hab p q hp hq
  have hfind : tFind heap1 s.table k h = some i₁ := by
    have := tFind_unique hkeys1 hi he1
    rwa [hk, hh] at this
  unfold insert
  dsimp only
  rw [← hidef, ← he0, ← hheap1, hfind]
  dsimp only
  constructor
  · apply evictN_not_table
    rw [unref_table]
    exact replaceId_not_mem holdne
  · apply evictN_not_ring
    rw [unref_ring]
    have hnodup : (s.ring ++ [i]).Nodup := by
      refine List.Nodup.append w.ringNodup (by simp) ?_
      intro a ha hb
      simp at hb
      subst hb
      exact hiR ha
    exact hnodup.not_mem_erase

theorem evictOnce_spec {s s' : Shard} (heq : evictOnce s = some s') :
    ∃ old rest, s.ring = old :: rest ∧ s'.ring = rest ∧
      s'.evicted = s.evicted ++ [old] ∧ s'.created = s.created ∧
      s'.nextId = s.nextId := by
  unfold evictOnce at heq
  by_cases hcap : s.capacity < s.usage
  · rw [if_pos hcap] at heq
    cases hr : s.ring with
    | nil =>
      rw [hr] at heq
      cases heq
    | cons old rest =>
      rw [hr] at heq
      dsimp only at heq
      cases hg : hGet s.heap old with
      | none =>
        rw [hg] at heq
        cases heq
      | some e =>
        rw [hg] at heq
        dsimp only at heq
        refine ⟨old, rest, rfl, ?_⟩
        cases hfind : tFind s.heap s.table e.key e.hash with
        | some j =>
          rw [hfind] at heq
          dsimp only at heq
          obtain rfl : _ = s' := Option.some_inj.mp heq
          exact ⟨by rw [unref_ring], by rw [unref_evicted],
            by rw [unref_created], by rw [unref_nextId]⟩
        | none =>
          rw [hfind] at heq
          dsimp only at heq
          obtain rfl : _ = s' := Option.some_inj.mp heq
          exact ⟨by rw [unref_ring], by rw [unref_evicted],
            by rw [unref_created], by rw [unref_nextId]⟩
  · rw [if_neg hcap] at heq
    cases heq

theorem pair_sublist_of_cons {A B x : Nat} {r : List Nat}
    (hs : List.Sublist [A, B] (x :: r)) (hne : A ≠ x) : List.Sublist [A, B] r := by
  cases hs with
  | cons _ h => exact h
  | cons₂ _ h => exact absurd rfl hne

theorem pair_sublist_append {A B : Nat} {r l : List Nat}
    (hs : List.Sublist [A, B] r) : List.Sublist [A, B] (r ++ l) :=
  hs.trans (List.sublist_append_left r l)

theorem pair_sublist_erase {A B x : Nat} {r : List Nat}
    (hs : List.Sublist [A, B] r) (hA : x ≠ A) (hB : x ≠ B) : List.Sublist [A, B] (r.erase x) := by
  have h1 := hs.erase x
  rwa [List.erase_of_not_mem (by simp; exact ⟨hA, hB⟩)] at h1

theorem evictN_lruQL {A B : Nat} (hne : A ≠ B) :
    ∀ (n : Nat) (s : Shard), s.ring.Nodup →
    (lruQL A B s ∨ A ∈ s.evicted) →
    (lruQL A B (evictN n s) ∨ A ∈ (evictN n s).evicted)
  | 0, s, _, hq => hq
  | n + 1, s, hnodup, hq => by
    unfold evictN
    cases heq : evictOnce s with
    | none => exact hq
    | some s' =>
      obtain ⟨old, rest, hring, hring', hev', hcr', hnx'⟩ := evictOnce_spec heq
      have hnodup' : s'.ring.Nodup := by
        rw [hring']
        rw [hring] at hnodup
        exact (List.nodup_cons.mp hnodup).2
      refine evictN_lruQL hne n s' hnodup' ?_
      rcases hq with ⟨hAr, hord, hAe, hBe⟩ | hAe
      · by_cases hoA : old = A
        · right
          rw [hev', hoA]
          exact List.mem_append_right _ (by simp)
        · left
          have hAr' : A ∈ s'.ring := by
            rw [hring']
            rw [hring] at hAr
            rcases List.mem_cons.mp hAr with h' | h'
            · exact absurd h'.symm hoA
            · exact h'
          have hoB : old ≠ B := by
            intro hoB
            subst hoB
            have hs := hord (hring ▸ List.mem_cons_self old rest)
            rw [hring] at hs
            cases hs with
            | cons _ h =>
              have : old ∈ rest := h.mem (by simp)
              rw [hring] at hnodup
              exact (List.nodup_cons.mp hnodup).1 this
            | cons₂ _ h => exact hne rfl
          refine ⟨hAr', ?_, ?_, ?_⟩
          · intro hBr'
            have hBr : B ∈ s.ring := by
              rw [hring]
              rw [hring'] at hBr'
              exact List.mem_cons_of_mem _ hBr'
            have := hord hBr
            rw [hring] at this
            rw [hring']
            exact pair_sublist_of_cons this (fun hAo => hoA hAo.symm)
          · rw [hev']
            intro hmem
            rcases List.mem_append.mp hmem with h' | h'
            · exact hAe h'
            · simp at h'
              exact hoA h'.symm
          · rw [hev']
            intro hmem
            rcases List.mem_append.mp hmem with h' | h'
            · exact hBe h'
            · simp at h'
              exact hoB h'.symm
      · right
        rw [hev']
        exact List.mem_append_left _ hAe

theorem lruInv_step {s : Shard} {op : Op} {A B : Nat} {t : Key × Nat × Nat × Nat}
    (w : WF s) (hinv : lruInv A B t s)
    (havoid : ¬ touches op t.1 t.2.1) :
    lruInv A B t (applyOp s op) := by
  obtain ⟨hcg, hAn, hBn, hne, hq⟩ := hinv
  have hAentry : A ∈ s.ring →
      ∃ e, hGet s.heap A = some e ∧ e.key = t.1 ∧ e.hash = t.2.1 := by
    intro hAr
    have hAT := (w.ringTable A).mp hAr
    cases hg : hGet s.heap A with
    | none => exact absurd hg (w.tableAlive A hAT)
    | some e =>
      have hcv := w.createdVal A e hg
      rw [hcg] at hcv
      have htr := Option.some_inj.mp hcv
      refine ⟨e, rfl, (congrArg Prod.fst htr).symm, ?_⟩
      have := congrArg (fun x => x.2.1) htr
      exact this.symm
  cases op with
  | rel i =>
    obtain ⟨_, _, hrg, hnx, hcr, hev, _⟩ := release_frame s i
    dsimp only [applyOp]
    refine ⟨by rw [hcr]; exact hcg, by rw [hnx]; exact hAn,
      by rw [hnx]; exact hBn, hne, ?_⟩
    rcases hq with hql | hAe
    · left
      simpa only [lruQL, hrg, hev] using hql
    · right
      rw [hev]
      exact hAe
  | lkp k' h' =>
    dsimp only [applyOp]
    unfold lookup
    cases hf : tFind s.heap s.table k' h' with
    | none => exact ⟨hcg, hAn, hBn, hne, hq⟩
    | some j =>
      dsimp only
      cases hg : hGet s.heap j with
      | none => exact ⟨hcg, hAn, hBn, hne, hq⟩
      | some e =>
        dsimp only
        refine ⟨hcg, hAn, hBn, hne, ?_⟩
        rcases hq with ⟨h1, h2, h3, h4⟩ | hAe
        · left
          obtain ⟨eA, hgA, hkA, hhA⟩ := hAentry h1
          have hjA : j ≠ A := by
            intro hje
            subst hje
            obtain ⟨e', hg', hh', hk'⟩ := tFind_spec hf
            rw [hgA] at hg'
            cases hg'
            exact havoid ⟨by rw [← hkA, hk'], by rw [← hhA, hh']⟩
          refine ⟨?_, ?_, h3, h4⟩
          · exact List.mem_append_left _
              ((List.mem_erase_of_ne (fun hAj => hjA hAj.symm)).mpr h1)
          · intro hBr'
            rcases List.mem_append.mp hBr' with hBe | hBj
            · have hBj' : B ≠ j := ((w.ringNodup.mem_erase_iff).mp hBe).1
              have hBr : B ∈ s.ring := ((w.ringNodup.mem_erase_iff).mp hBe).2
              exact pair_sublist_append
                (pair_sublist_erase (h2 hBr) hjA (fun hh => hBj' hh.symm))
            · simp at hBj
              subst hBj
              have hAe' : A ∈ s.ring.erase B :=
                (List.mem_erase_of_ne hne).mpr h1
              have h1' : List.Sublist [A] (s.ring.erase B) := by
                simpa using hAe'
              exact List.Sublist.append h1' (List.Sublist.refl [B])
        · right
          exact hAe
  | ers k' h' =>
    dsimp only [applyOp]
    unfold erase
    cases hf : tFind s.heap s.table k' h' with
    | none => exact ⟨hcg, hAn, hBn, hne, hq⟩
    | some j =>
      dsimp only
      refine ⟨by rw [unref_created]; exact hcg, by rw [unref_nextId]; exact hAn,
        by rw [unref_nextId]; exact hBn, hne, ?_⟩
      rcases hq with ⟨h1, h2, h3, h4⟩ | hAe
      · left
        obtain ⟨eA, hgA, hkA, hhA⟩ := hAentry h1
        have hjA : j ≠ A := by
          intro hje
          subst hje
          obtain ⟨e', hg', hh', hk'⟩ := tFind_spec hf
          rw [hgA] at hg'
          cases hg'
          exact havoid ⟨by rw [← hkA, hk'], by rw [← hhA, hh']⟩
        refine ⟨?_, ?_, ?_, ?_⟩
        · rw [unref_ring]
          exact (List.mem_erase_of_ne (fun hAj => hjA hAj.symm)).mpr h1
        · rw [unref_ring]
          intro hBr'
          have hBj' : B ≠ j := ((w.ringNodup.mem_erase_iff).mp hBr').1
          have hBr : B ∈ s.ring := ((w.ringNodup.mem_erase_iff).mp hBr').2
          exact pair_sublist_erase (h2 hBr) hjA (fun hh => hBj' hh.symm)
        · rw [unref_evicted]
          exact h3
        · rw [unref_evicted]
          exact h4
      · right
        rw [unref_evicted]
        exact hAe
  | ins k' h' v' c' =>
    dsimp only [applyOp]
    have hfresh : hGet s.heap s.nextId = none := by
      cases hg : hGet s.heap s.nextId with
      | none => rfl
      | some e => exact absurd (w.heapLt _ (mem_of_hGet hg)) (lt_irrefl s.nextId)
    have hiR : s.nextId ∉ s.ring :=
      fun hR => w.tableAlive _ ((w.ringTable _).mp hR) hfresh
    have hAi : A ≠ s.nextId := Nat.ne_of_lt hAn
    have hBi : B ≠ s.nextId := Nat.ne_of_lt hBn
    set i := s.nextId with hidef
    set e0 : Entry := { key := k', hash := h', value := v', charge := c' % W64, refs := 2 }
      with he0
    set heap1 := s.heap ++ [(i, e0)] with hheap1
    have hget1 : ∀ j, j ≠ i → hGet heap1 j = hGet s.heap j := by
      intro j hj
      rw [hheap1, hGet_append]
      cases hgj : hGet s.heap j with
      | some f => rfl
      | none => simp [hGet, Ne.symm hj]
    have hrnodup : (s.ring ++ [i]).Nodup := by
      refine List.Nodup.append w.ringNodup (by simp) ?_
      intro a ha hb
      simp at hb
      subst hb
      exact hiR ha
    have hcga : cGet (s.created ++ [(i, (k', h', v', c' % W64))]) A = some t :=
      cGet_append_left hcg
    unfold insert
    dsimp only
    rw [← hidef, ← he0, ← hheap1]
    cases hfind : tFind heap1 s.table k' h' with
    | none =>
      dsimp only
      simp only [evict]
      refine ⟨?_, ?_, ?_, hne, ?_⟩
      · rw [evictN_created]
        exact hcga
      · rw [evictN_nextId]
        exact Nat.lt_succ_of_lt hAn
      · rw [evictN_nextId]
        exact Nat.lt_succ_of_lt hBn
      · refine evictN_lruQL hne _ _ hrnodup ?_
        rcases hq with ⟨h1, h2, h3, h4⟩ | hAe
        · left
          refine ⟨List.mem_append_left _ h1, ?_, h3, h4⟩
          intro hBr'
          rcases List.mem_append.mp hBr' with hBr | hBj
          · exact pair_sublist_append (h2 hBr)
          · simp at hBj
            exact absurd hBj hBi
        · right
          exact hAe
    | some old =>
      dsimp only
      simp only [evict]
      obtain ⟨eo, hgo1, hoh, hok'⟩ := tFind_spec hfind
      have holdT : old ∈ s.table := tFind_mem hfind
      have holdne : old ≠ i :=
        fun hje => w.tableAlive old holdT
          (by rw [← hje] at hfresh; exact hfresh)
      have hgo : hGet s.heap old = some eo := by
        rw [← hget1 old holdne]
        exact hgo1
      refine ⟨?_, ?_, ?_, hne, ?_⟩
      · rw [evictN_created, unref_created]
        exact hcga
      · rw [evictN_nextId, unref_nextId]
        exact Nat.lt_succ_of_lt hAn
      · rw [evictN_nextId, unref_nextId]
        exact Nat.lt_succ_of_lt hBn
      · have hrnodup' : ((s.ring ++ [i]).erase old).Nodup := hrnodup.erase old
        refine evictN_lruQL hne _ _ (by rw [unref_ring]; exact hrnodup') ?_
        rcases hq with ⟨h1, h2, h3, h4⟩ | hAe
        · left
          obtain ⟨eA, hgA, hkA, hhA⟩ := hAentry h1
          have hjA : old ≠ A := by
            intro hje
            subst hje
            rw [hgA] at hgo
            cases hgo
            exact havoid ⟨by rw [← hkA, hok'], by rw [← hhA, hoh]⟩
          refine ⟨?_, ?_, ?_, ?_⟩
          · rw [unref_ring]
            exact (List.mem_erase_of_ne (fun hAj => hjA hAj.symm)).mpr
              (List.mem_append_left _ h1)
          · rw [unref_ring]
            intro hBr'
            have hBo : B ≠ old := ((hrnodup.mem_erase_iff).mp hBr').1
            have hBr'' : B ∈ s.ring ++ [i] := ((hrnodup.mem_erase_iff).mp hBr').2
            have hBr : B ∈ s.ring := by
              rcases List.mem_append.mp hBr'' with hm | hm
              · exact hm
              · simp at hm
                exact absurd hm hBi
            exact pair_sublist_erase (pair_sublist_append (h2 hBr)) hjA
              (fun hh => hBo hh.symm)
          · rw [unref_evicted]
            exact h3
          · rw [unref_evicted]
            exact h4
        · right
          rw [unref_evicted]
          exact hAe

theorem reach_applyOp {s : Shard} (op : Op) (hr : Reach s) (hok : OkOp s op) :
    Reach (applyOp s op) := by
  cases op with
  | ins k h v c => exact Reach.insert k h v c hr
  | lkp k h => exact Reach.lookup k h hr
  | rel i => exact Reach.release i hr hok
  | ers k h => exact Reach.erase k h hr

theorem reach_steps {s s' : Shard} {ops : List Op} (hr : Reach s)
    (hst : Steps s ops s') : Reach s' := by
  induction hst with
  | nil => exact hr
  | cons hok _ ih => exact ih (reach_applyOp _ hr hok)

theorem lruInv_steps {s s' : Shard} {ops : List Op} {A B : Nat}
    {t : Key × Nat × Nat × Nat} (hr : Reach s) (hst : Steps s ops s')
    (hinv : lruInv A B t s)
    (havoid : ∀ op ∈ ops, ¬ touches op t.1 t.2.1) : lruInv A B t s' := by
  induction hst with
  | nil => exact hinv
  | @cons s₀ s₁ op ops hok _ ih =>
    exact ih (reach_applyOp op hr hok)
      (lruInv_step (wf_reach hr) hinv (havoid op (List.mem_cons_self _ _)))
      (fun o ho => havoid o (List.mem_cons_of_mem _ ho))


theorem chargeSum_ge_of_mem {l : List (Nat × Entry)} {j : Nat} {e : Entry}
    (h : hGet l j = some e) : e.charge ≤ chargeSum l := by
  induction l with
  | nil => simp [hGet] at h
  | cons p t ih =>
    obtain ⟨m, f⟩ := p
    by_cases hm : m = j
    · simp [hGet, hm] at h
      subst h
      simp [chargeSum]
    · simp [hGet, hm] at h
      have := ih h
      simp [chargeSum] at this ⊢
      omega

theorem unref_chargeSum_le (s : Shard) (i : Nat) :
    chargeSum (unref s i).heap ≤ chargeSum s.heap := by
  cases hg : hGet s.heap i with
  | none => rw [unref_none hg]
  | some e =>
    by_cases hz : e.refs - 1 = 0
    · rw [unref_free hg hz]
      have := chargeSum_hDel hg
      dsimp only
      omega
    · rw [unref_keep hg hz]
      dsimp only
      rw [@chargeSum_hSet s.heap i e { e with refs := e.refs - 1 } hg rfl]

theorem evictOnce_chargeSum_le {s s' : Shard} (heq : evictOnce s = some s') :
    chargeSum s'.heap ≤ chargeSum s.heap := by
  unfold evictOnce at heq
  by_cases hcap : s.capacity < s.usage
  · rw [if_pos hcap] at heq
    cases hr : s.ring with
    | nil =>
      rw [hr] at heq
      cases heq
    | cons old rest =>
      rw [hr] at heq
      dsimp only at heq
      cases hg : hGet s.heap old with
      | none =>
        rw [hg] at heq
        cases heq
      | some e =>
        rw [hg] at heq
        dsimp only at heq
        cases hfind : tFind s.heap s.table e.key e.hash with
        | some j =>
          rw [hfind] at heq
          dsimp only at heq
          obtain rfl : _ = s' := Option.some_inj.mp heq
          exact unref_chargeSum_le _ old
        | none =>
          rw [hfind] at heq
          dsimp only at heq
          obtain rfl : _ = s' := Option.some_inj.mp heq
          exact unref_chargeSum_le _ old
  · rw [if_neg hcap] at heq
    cases heq

theorem evictN_chargeSum_le : ∀ (n : Nat) (s : Shard),
    chargeSum (evictN n s).heap ≤ chargeSum s.heap
  | 0, s => le_refl _
  | n + 1, s => by
    unfold evictN
    cases heq : evictOnce s with
    | none => exact le_refl _
    | some s' =>
      exact le_trans (evictN_chargeSum_le n s') (evictOnce_chargeSum_le heq)

theorem insert_chargeSum_le (s : Shard) (k : Key) (h v c : Nat) :
    chargeSum (insert s k h v c).2.heap ≤ chargeSum s.heap + c % W64 := by
  have hbase : chargeSum (s.heap ++ [(s.nextId, { key := k, hash := h, value := v, charge := c % W64, refs := 2 })]) = chargeSum s.heap + c % W64 := by
    rw [chargeSum_append]
    simp [chargeSum]
  unfold insert
  dsimp only
  cases hfind : tFind (s.heap ++ [(s.nextId,
      { key := k, hash := h, value := v, charge := c % W64, refs := 2 })])
      s.table k h with
  | none =>
    dsimp only
    simp only [evict]
    refine le_trans (evictN_chargeSum_le _ _) ?_
    dsimp only
    rw [hbase]
  | some old =>
    dsimp only
    simp only [evict]
    refine le_trans (evictN_chargeSum_le _ _) ?_
    refine le_trans (unref_chargeSum_le _ old) ?_
    dsimp only
    rw [hbase]

theorem evictOnce_none {s : Shard} (heq : evictOnce s = none) :
    ¬ s.capacity < s.usage ∨ s.ring = [] ∨
    ∃ old ∈ s.ring, hGet s.heap old = none := by
  unfold evictOnce at heq
  by_cases hcap : s.capacity < s.usage
  · rw [if_pos hcap] at heq
    cases hr : s.ring with
    | nil => exact Or.inr (Or.inl rfl)
    | cons old rest =>
      rw [hr] at heq
      dsimp only at heq
      cases hg : hGet s.heap old with
      | none =>
        exact Or.inr (Or.inr ⟨old, List.mem_cons_self _ _, hg⟩)
      | some e =>
        rw [hg] at heq
        dsimp only at heq
        cases hfind : tFind s.heap s.table e.key e.hash with
        | some j =>
          rw [hfind] at heq
          dsimp only at heq
          cases heq
        | none =>
          rw [hfind] at heq
          dsimp only at heq
          cases heq
  · exact Or.inl hcap

theorem evictN_guard : ∀ (n : Nat) (s : Shard), s.ring.length ≤ n →
    ¬ (evictN n s).capacity < (evictN n s).usage ∨ (evictN n s).ring = [] ∨
    ∃ old ∈ (evictN n s).ring, hGet (evictN n s).heap old = none
  | 0, s, hlen => by
    have : s.ring = [] := List.eq_nil_of_length_eq_zero (Nat.le_zero.mp hlen)
    exact Or.inr (Or.inl this)
  | n + 1, s, hlen => by
    unfold evictN
    cases heq : evictOnce s with
    | none => exact evictOnce_none heq
    | some s' =>
      obtain ⟨old, rest, hring, hring', _, _, _⟩ := evictOnce_spec heq
      refine evictN_guard n s' ?_
      rw [hring']
      rw [hring] at hlen
      simpa using Nat.lt_succ_iff.mp (Nat.lt_of_lt_of_le (by simp) hlen)

theorem insert_ring_guard (s : Shard) (k : Key) (h v c : Nat) :
    ¬ (insert s k h v c).2.capacity < (insert s k h v c).2.usage ∨
    (insert s k h v c).2.ring = [] ∨
    ∃ old ∈ (insert s k h v c).2.ring,
      hGet (insert s k h v c).2.heap old = none := by
  unfold insert
  dsimp only
  cases hfind : tFind (s.heap ++ [(s.nextId,
      { key := k, hash := h, value := v, charge := c % W64, refs := 2 })])
      s.table k h with
  | none =>
    dsimp only
    simp only [evict]
    exact evictN_guard _ _ (le_refl _)
  | some old =>
    dsimp only
    simp only [evict]
    exact evictN_guard _ _ (le_refl _)

/-- Inserting an entry whose charge exceeds the shard's capacity (modulo
`size_t`) into a reachable shard empties the ring and the table: the
eviction pass cannot bring `usage` back under `capacity` because the new
entry itself stays allocated (its handle is outstanding), so it evicts
everything.  The new entry remains readable through its handle. -/
theorem insert_over_cap (sh : Shard) (k : Key) (h v ch : Nat) (hr : Reach sh)
    (hch : sh.capacity < ch % W64)
    (hsum : chargeSum sh.heap + ch % W64 < W64) :
    (insert sh k h v ch).2.ring = [] ∧
    (insert sh k h v ch).2.table = [] ∧
    (lookup (insert sh k h v ch).2 k h).1 = none ∧
    value (insert sh k h v ch).2 (insert sh k h v ch).1 = some v ∧
    (insert sh k h v ch).1 ∈ (insert sh k h v ch).2.handles := by
  have w := wf_reach hr
  have hr' : Reach (insert sh k h v ch).2 := Reach.insert k h v ch hr
  have w' := wf_reach hr'
  obtain ⟨gh, gc, gcap, _⟩ := insert_ghost sh k h v ch
  have hmemh : (insert sh k h v ch).1 ∈ (insert sh k h v ch).2.handles := by
    rw [insert_ret, gh]
    exact List.mem_append_right _ (by simp)
  cases hge : hGet (insert sh k h v ch).2.heap (insert sh k h v ch).1 with
  | none => exact absurd hge (w'.handlesAlive _ hmemh)
  | some e =>
    have hcge : cGet (insert sh k h v ch).2.created (insert sh k h v ch).1 =
        some (k, h, v, ch % W64) := by
      rw [insert_ret, gc, cGet_append]
      have hnone : cGet sh.created sh.nextId = none :=
        cGet_eq_none (fun x hx => Nat.ne_of_lt (w.createdLt x hx))
      rw [hnone]
      simp [cGet]
    have htriple := w'.createdVal _ e hge
    rw [hcge] at htriple
    have htr := Option.some_inj.mp htriple
    have hv : e.value = v := by
      have := congrArg (fun t => t.2.2.1) htr
      exact this.symm
    have hc : e.charge = ch % W64 := by
      have := congrArg (fun t => t.2.2.2) htr
      exact this.symm
    have hlow : ch % W64 ≤ chargeSum (insert sh k h v ch).2.heap := by
      rw [← hc]
      exact chargeSum_ge_of_mem hge
    have hhigh : chargeSum (insert sh k h v ch).2.heap < W64 :=
      Nat.lt_of_le_of_lt (insert_chargeSum_le sh k h v ch) hsum
    have husage : (insert sh k h v ch).2.usage =
        chargeSum (insert sh k h v ch).2.heap := by
      rw [w'.usageEq]
      exact Nat.mod_eq_of_lt hhigh
    have hcaplt : (insert sh k h v ch).2.capacity <
        (insert sh k h v ch).2.usage := by
      rw [gcap, husage]
      omega
    have hring : (insert sh k h v ch).2.ring = [] := by
      rcases insert_ring_guard sh k h v ch with hg | hg | ⟨old, hmem, hnone⟩
      · exact absurd hcaplt hg
      · exact hg
      · exact absurd hnone
          (w'.tableAlive old ((w'.ringTable old).mp hmem))
    have htable : (insert sh k h v ch).2.table = [] := by
      rw [List.eq_nil_iff_forall_not_mem]
      intro j hj
      have := (w'.ringTable j).mpr hj
      rw [hring] at this
      cases this
    refine ⟨hring, htable, ?_, ?_, hmemh⟩
    · unfold lookup
      have hfnone : tFind (insert sh k h v ch).2.heap
          (insert sh k h v ch).2.table k h = none := by
        rw [htable]
        rfl
      rw [hfnone]
    · rw [value, hge]
      simp [hv]

theorem pairwise_lt_range1 : ∀ (n s : Nat),
    List.Pairwise (fun a b => a < b) (List.range' s n)
  | 0, _ => List.Pairwise.nil
  | n + 1, s => by
    rw [List.range'_succ]
    refine List.Pairwise.cons ?_ (pairwise_lt_range1 n (s + 1))
    intro b hb
    have := (List.mem_range'_1.mp hb).1
    omega

theorem newIdOutputs_spec (hf : Key → Nat) : ∀ (ops : List SOp) (c : SCache),
    c.lastId + countNewId ops < W64 →
    newIdOutputs hf c ops = List.range' (c.lastId + 1) (countNewId ops)
  | [], _, _ => rfl
  | SOp.newId :: t, c, hb => by
    have hcnt : countNewId (SOp.newId :: t) = countNewId t + 1 := rfl
    have h1 : c.lastId + 1 < W64 := by rw [hcnt] at hb; omega
    have hmod : (c.lastId + 1) % W64 = c.lastId + 1 := Nat.mod_eq_of_lt h1
    have hrec := newIdOutputs_spec hf t (sNewId c).2 (by
      show (c.lastId + 1) % W64 + countNewId t < W64
      rw [hmod]
      rw [hcnt] at hb
      omega)
    show (sNewId c).1 :: newIdOutputs hf (sNewId c).2 t =
      List.range' (c.lastId + 1) (countNewId (SOp.newId :: t))
    rw [hrec, hcnt]
    show (c.lastId + 1) % W64 ::
        List.range' ((c.lastId + 1) % W64 + 1) (countNewId t) =
      List.range' (c.lastId + 1) (countNewId t + 1)
    rw [hmod, List.range'_succ]
  | SOp.ins k v ch :: t, c, hb => by
    show newIdOutputs hf (sApply hf c (SOp.ins k v ch)) t =
      List.range' ((sApply hf c (SOp.ins k v ch)).lastId + 1) (countNewId t)
    exact newIdOutputs_spec hf t _ hb
  | SOp.lkp k :: t, c, hb => by
    show newIdOutputs hf (sApply hf c (SOp.lkp k)) t =
      List.range' ((sApply hf c (SOp.lkp k)).lastId + 1) (countNewId t)
    exact newIdOutputs_spec hf t _ hb
  | SOp.rel p :: t, c, hb => by
    show newIdOutputs hf (sApply hf c (SOp.rel p)) t =
      List.range' ((sApply hf c (SOp.rel p)).lastId + 1) (countNewId t)
    exact newIdOutputs_spec hf t _ hb
  | SOp.ers k :: t, c, hb => by
    show newIdOutputs hf (sApply hf c (SOp.ers k)) t =
      List.range' ((sApply hf c (SOp.ers k)).lastId + 1) (countNewId t)
    exact newIdOutputs_spec hf t _ hb

theorem getD_set_self {α : Type} (l : List α) (n : Nat) (a d : α)
    (h : n < l.length) : (l.set n a).getD n d = a := by
  rw [List.getD_eq_getElem _ d (by rw [List.length_set]; exact h)]
  simp

theorem hashOf_lt (hf : Key → Nat) (k : Key) : hashOf hf k < W32 :=
  Nat.mod_lt _ (by decide)

theorem shardOf_lt {h : Nat} (hh : h < W32) : shardOf h < kNumShards := by
  rw [shardOf, kNumShards]
  rw [Nat.div_lt_iff_lt_mul (by norm_num : (0 : Nat) < 2 ^ 28)]
  calc h < W32 := hh
    _ = 16 * 2 ^ 28 := by norm_num [W32]

theorem sreach_shards {hf : Key → Nat} {cap : Nat} {c : SCache}
    (hr : SReach hf cap c) :
    c.shards.length = kNumShards ∧
    ∀ sh ∈ c.shards, Reach sh ∧
      sh.capacity = (cap + (kNumShards - 1)) / kNumShards := by
  induction hr with
  | init =>
    refine ⟨by simp [newCache], ?_⟩
    intro sh hsh
    simp only [newCache] at hsh
    rw [List.eq_of_mem_replicate hsh]
    exact ⟨Reach.init _, rfl⟩
  | ins k v ch hc ih =>
    obtain ⟨hlen, hmem⟩ := ih
    rename_i c₀
    have hnlt : shardOf (hashOf hf k) < c₀.shards.length := by
      rw [hlen]; exact shardOf_lt (hashOf_lt hf k)
    have hgd : c₀.shards.getD (shardOf (hashOf hf k)) (mkShard 0) ∈ c₀.shards := by
      rw [List.getD_eq_getElem _ _ hnlt]
      exact List.getElem_mem hnlt
    obtain ⟨hre, hcap⟩ := hmem _ hgd
    refine ⟨by simp [sInsert, List.length_set, hlen], ?_⟩
    intro sh hsh
    simp only [sInsert] at hsh
    rcases List.mem_or_eq_of_mem_set hsh with hmem' | rfl
    · exact hmem _ hmem'
    · refine ⟨Reach.insert k (hashOf hf k) v ch hre, ?_⟩
      rw [(insert_ghost _ _ _ _ _).2.2.1, hcap]
  | lkp k hc ih =>
    obtain ⟨hlen, hmem⟩ := ih
    rename_i c₀
    have hnlt : shardOf (hashOf hf k) < c₀.shards.length := by
      rw [hlen]; exact shardOf_lt (hashOf_lt hf k)
    have hgd : c₀.shards.getD (shardOf (hashOf hf k)) (mkShard 0) ∈ c₀.shards := by
      rw [List.getD_eq_getElem _ _ hnlt]
      exact List.getElem_mem hnlt
    obtain ⟨hre, hcap⟩ := hmem _ hgd
    refine ⟨by simp [sLookup, List.length_set, hlen], ?_⟩
    intro sh hsh
    simp only [sLookup] at hsh
    rcases List.mem_or_eq_of_mem_set hsh with hmem' | rfl
    · exact hmem _ hmem'
    · refine ⟨Reach.lookup k (hashOf hf k) hre, ?_⟩
      rw [(lookup_frame _ _ _).1, hcap]
  | rel p hc hph ih =>
    obtain ⟨hlen, hmem⟩ := ih
    rename_i c₀
    have hnlt : p.1 < c₀.shards.length := by
      by_contra hge
      rw [List.getD_eq_default _ _ (Nat.le_of_not_lt hge)] at hph
      simp [mkShard] at hph
    have hgd : c₀.shards.getD p.1 (mkShard 0) ∈ c₀.shards := by
      rw [List.getD_eq_getElem _ _ hnlt]
      exact List.getElem_mem hnlt
    obtain ⟨hre, hcap⟩ := hmem _ hgd
    refine ⟨by simp [sRelease, List.length_set, hlen], ?_⟩
    intro sh hsh
    simp only [sRelease] at hsh
    rcases List.mem_or_eq_of_mem_set hsh with hmem' | rfl
    · exact hmem _ hmem'
    · refine ⟨Reach.release p.2 hre hph, ?_⟩
      rw [(release_frame _ _).1, hcap]
  | ers k hc ih =>
    obtain ⟨hlen, hmem⟩ := ih
    rename_i c₀
    have hnlt : shardOf (hashOf hf k) < c₀.shards.length := by
      rw [hlen]; exact shardOf_lt (hashOf_lt hf k)
    have hgd : c₀.shards.getD (shardOf (hashOf hf k)) (mkShard 0) ∈ c₀.shards := by
      rw [List.getD_eq_getElem _ _ hnlt]
      exact List.getElem_mem hnlt
    obtain ⟨hre, hcap⟩ := hmem _ hgd
    refine ⟨by simp [sErase, List.length_set, hlen], ?_⟩
    intro sh hsh
    simp only [sErase] at hsh
    rcases List.mem_or_eq_of_mem_set hsh with hmem' | rfl
    · exact hmem _ hmem'
    · refine ⟨Reach.erase k (hashOf hf k) hre, ?_⟩
      rw [(erase_frame _ _ _).1, hcap]
  | nid hc ih => exact ih

/-! ### Claims -/

/-- Claim C7: strict LRU eviction order.  If A is ordered before B in a
shard's ring (A least-recently used) and a sequence of operations never
touches A's key (no Lookup of it, no Insert replacing it, no Erase of
it), then the eviction pass never removes B while A is still in the
ring: whenever B has been taken by an eviction pass, A is no longer in
the ring — it was taken no later — and as long as both remain in the
ring, A stays ordered before B. -/
theorem c7_lru_eviction_order (s s' : Shard) (ops : List Op) (A B : Nat)
    (eA : Entry) (hr : Reach s) (hst : Steps s ops s')
    (hAB : List.Sublist [A, B] s.ring) (hA : hGet s.heap A = some eA)
    (havoid : ∀ op ∈ ops, ¬ touches op eA.key eA.hash) :
    (B ∈ s'.evicted → A ∈ s'.evicted) ∧
    (A ∈ s'.ring → B ∈ s'.ring → List.Sublist [A, B] s'.ring) := by
  have w := wf_reach hr
  have hAr : A ∈ s.ring := hAB.mem (by simp)
  have hBr : B ∈ s.ring := hAB.mem (by simp)
  have hne : A ≠ B := by
    have hnd : ([A, B] : List Nat).Nodup := List.Nodup.sublist hAB w.ringNodup
    simpa using hnd
  have hinv0 : lruInv A B (eA.key, eA.hash, eA.value, eA.charge) s := by
    refine ⟨?_, ?_, ?_, hne, Or.inl ⟨hAr, fun _ => hAB, ?_, ?_⟩⟩
    · exact w.createdVal A eA hA
    · exact w.heapLt (A, eA) (mem_of_hGet hA)
    · have hBT := (w.ringTable B).mp hBr
      cases hgB : hGet s.heap B with
      | none => exact absurd hgB (w.tableAlive B hBT)
      | some eB => exact w.heapLt (B, eB) (mem_of_hGet hgB)
    · exact fun hAe => (w.evictedRing A hAe) hAr
    · exact fun hBe => (w.evictedRing B hBe) hBr
  have hfin := lruInv_steps hr hst hinv0 havoid
  obtain ⟨_, _, _, _, hq⟩ := hfin
  have w' := wf_reach (reach_steps hr hst)
  constructor
  · intro hBe
    rcases hq with ⟨_, _, _, h4⟩ | hAe
    · exact absurd hBe h4
    · exact hAe
  · intro hAr' hBr'
    rcases hq with ⟨_, h2, _, _⟩ | hAe
    · exact h2 hBr'
    · exact absurd hAr' (w'.evictedRing A hAe)

/-- Witness for C7: two entries inserted into a capacity-100 shard (ring
`[0, 1]`), then a Lookup of B's key (which does not touch A). -/
theorem c7_lru_eviction_order_witness :
    Reach (insert (insert (mkShard 100) [0] 0 5 1).2 [1] 1 6 1).2 ∧
    List.Sublist [0, 1] (insert (insert (mkShard 100) [0] 0 5 1).2 [1] 1 6 1).2.ring ∧
    hGet (insert (insert (mkShard 100) [0] 0 5 1).2 [1] 1 6 1).2.heap 0 =
      some { key := [0], hash := 0, value := 5, charge := 1, refs := 2 } ∧
    ((1 ∈ (applyOp (insert (insert (mkShard 100) [0] 0 5 1).2 [1] 1 6 1).2
        (Op.lkp [1] 1)).evicted →
      0 ∈ (applyOp (insert (insert (mkShard 100) [0] 0 5 1).2 [1] 1 6 1).2
        (Op.lkp [1] 1)).evicted) ∧
     (0 ∈ (applyOp (insert (insert (mkShard 100) [0] 0 5 1).2 [1] 1 6 1).2
        (Op.lkp [1] 1)).ring →
      1 ∈ (applyOp (insert (insert (mkShard 100) [0] 0 5 1).2 [1] 1 6 1).2
        (Op.lkp [1] 1)).ring →
      List.Sublist [0, 1]
        (applyOp (insert (insert (mkShard 100) [0] 0 5 1).2 [1] 1 6 1).2
          (Op.lkp [1] 1)).ring)) := by
  have hreach : Reach (insert (insert (mkShard 100) [0] 0 5 1).2 [1] 1 6 1).2 :=
    Reach.insert [1] 1 6 1 (Reach.insert [0] 0 5 1 (Reach.init 100))
  have hring : (insert (insert (mkShard 100) [0] 0 5 1).2 [1] 1 6 1).2.ring =
      [0, 1] := by decide
  have hsub : List.Sublist [0, 1]
      (insert (insert (mkShard 100) [0] 0 5 1).2 [1] 1 6 1).2.ring := by
    rw [hring]
  refine ⟨hreach, hsub, by decide, ?_⟩
  exact c7_lru_eviction_order _ _ [Op.lkp [1] 1] 0 1
    { key := [0], hash := 0, value := 5, charge := 1, refs := 2 }
    hreach (Steps.cons trivial (Steps.nil _)) hsub (by decide)
    (by
      intro op hop
      rcases List.mem_singleton.mp hop with rfl
      simp [touches])

/-- Claim C1, counterexample: the claim "`usage` equals the sum of
`charge` over all Entries currently reachable from the table, in every
reachable shard state" is false.  Insert a charge-1 entry into an empty
capacity-0 shard: the eviction pass inside `Insert` removes it from the
table immediately, but `Unref` only drops its refcount to 1 (the
returned handle is still outstanding), so `usage_` is not decremented:
the state has `usage = 1` while the table is empty. -/
theorem c1_counterexample :
    Reach (insert (mkShard 0) [0] 0 5 1).2 ∧
    (insert (mkShard 0) [0] 0 5 1).2.usage = 1 ∧
    tableChargeSum (insert (mkShard 0) [0] 0 5 1).2 = 0 ∧
    ¬((insert (mkShard 0) [0] 0 5 1).2.usage =
      tableChargeSum (insert (mkShard 0) [0] 0 5 1).2) :=
  ⟨Reach.insert [0] 0 5 1 (Reach.init 0), by decide, by decide, by decide⟩

/-- Claim C1, amended: in every reachable shard state, `usage` equals the
`size_t` sum of `charge` over all *allocated* Entries — those reachable
from the table plus those already evicted/erased/replaced but kept alive
by outstanding handles (`Unref` subtracts the charge only when the entry
is freed). -/
theorem c1_usage_eq_live_charge (s : Shard) (hr : Reach s) :
    s.usage = chargeSum s.heap % W64 :=
  (wf_reach hr).usageEq

/-- Witness for C1's amended theorem at a concrete reachable state. -/
theorem c1_usage_eq_live_charge_witness :
    Reach (insert (mkShard 0) [0] 0 5 1).2 ∧
    (insert (mkShard 0) [0] 0 5 1).2.usage =
      chargeSum (insert (mkShard 0) [0] 0 5 1).2.heap % W64 :=
  ⟨Reach.insert [0] 0 5 1 (Reach.init 0),
    c1_usage_eq_live_charge _ (Reach.insert [0] 0 5 1 (Reach.init 0))⟩

/-- Claim C2, counterexample: the claim "an Entry whose charge alone
exceeds the capacity, inserted into an empty shard, is still the sole
resident of the shard after Insert completes (reachable from the table
and present in the ring) and only becomes the eviction candidate later"
is false: the eviction loop runs *inside* `Insert` itself
(`while (usage_ > capacity_ && lru_.next != &lru_)`), and since the new
entry is already in the ring it is evicted before `Insert` returns —
charge 6 into an empty capacity-5 shard leaves table and ring empty. -/
theorem c2_counterexample :
    Reach (insert (mkShard 5) [0] 0 7 6).2 ∧
    (insert (mkShard 5) [0] 0 7 6).1 = 0 ∧
    (insert (mkShard 5) [0] 0 7 6).2.table = [] ∧
    (insert (mkShard 5) [0] 0 7 6).2.ring = [] ∧
    (insert (mkShard 5) [0] 0 7 6).2.evicted = [0] :=
  ⟨Reach.insert [0] 0 7 6 (Reach.init 5), by decide, by decide, by decide,
    by decide⟩

/-- Claim C2, amended: an Entry whose charge alone exceeds the shard's
capacity, inserted into an empty shard, is admitted only momentarily: the
eviction pass inside the same `Insert` call evicts it before `Insert`
returns, so afterwards the table and ring are empty and a `Lookup` of the
key misses.  The entry survives solely through the returned handle (still
allocated, refcount 1, `Value` still works), its deleter has not run, and
`usage` still counts its charge. -/
theorem c2_oversized_insert (cap : Nat) (k : Key) (h v c : Nat)
    (hover : cap < c % W64) :
    (insert (mkShard cap) k h v c).1 = 0 ∧
    (insert (mkShard cap) k h v c).2.table = [] ∧
    (insert (mkShard cap) k h v c).2.ring = [] ∧
    (insert (mkShard cap) k h v c).2.evicted = [0] ∧
    (insert (mkShard cap) k h v c).2.freed = [] ∧
    (insert (mkShard cap) k h v c).2.usage = c % W64 ∧
    (insert (mkShard cap) k h v c).2.handles = [0] ∧
    hGet (insert (mkShard cap) k h v c).2.heap 0 =
      some { key := k, hash := h, value := v, charge := c % W64, refs := 1 } ∧
    value (insert (mkShard cap) k h v c).2 0 = some v ∧
    (lookup (insert (mkShard cap) k h v c).2 k h).1 = none := by
  have hmm : (0 + c % W64) % W64 = c % W64 := by
    rw [Nat.zero_add, Nat.mod_mod_of_dvd c dvd_rfl]
  unfold insert
  simp [mkShard, tFind, hGet, hmm, evict, evictN, evictOnce, unref, hover,
    value, lookup]

/-- Witness for C2's amended theorem: capacity 5, charge 6. -/
theorem c2_oversized_insert_witness :
    5 < 6 % W64 ∧
    ((insert (mkShard 5) [0] 0 7 6).1 = 0 ∧
     (insert (mkShard 5) [0] 0 7 6).2.table = [] ∧
     (insert (mkShard 5) [0] 0 7 6).2.ring = [] ∧
     (insert (mkShard 5) [0] 0 7 6).2.evicted = [0] ∧
     (insert (mkShard 5) [0] 0 7 6).2.freed = [] ∧
     (insert (mkShard 5) [0] 0 7 6).2.usage = 6 % W64 ∧
     (insert (mkShard 5) [0] 0 7 6).2.handles = [0] ∧
     hGet (insert (mkShard 5) [0] 0 7 6).2.heap 0 =
       some { key := [0], hash := 0, value := 7, charge := 6 % W64, refs := 1 } ∧
     value (insert (mkShard 5) [0] 0 7 6).2 0 = some 7 ∧
     (lookup (insert (mkShard 5) [0] 0 7 6).2 [0] 0).1 = none) :=
  ⟨by decide, c2_oversized_insert 5 [0] 0 7 6 (by decide)⟩

/-- Claim C6, counterexample: the unconditional clause "a subsequent
Lookup(k) returns a handle to V2" fails when the second insert's eviction
pass evicts V2 itself: with total shard capacity 0, both inserts
self-evict and the final Lookup misses. -/
theorem c6_counterexample :
    Reach (insert (insert (mkShard 0) [7] 0 11 1).2 [7] 0 22 1).2 ∧
    (lookup (insert (insert (mkShard 0) [7] 0 11 1).2 [7] 0 22 1).2 [7] 0).1 =
      none :=
  ⟨Reach.insert [7] 0 22 1 (Reach.insert [7] 0 11 1 (Reach.init 0)), by decide⟩

/-- Claim C6, amended: after `Insert(k, V1)` followed by `Insert(k, V2)`
(with V1's entry still resident when the second insert runs), the old V1
entry is removed from both the table and the ring; since the first
insert's handle is still outstanding, no deleter for V1 has run yet, V1
is still readable through that handle, and the release of its last
handle appends exactly one deleter invocation `(k, V1)`; a subsequent
`Lookup(k)` returns a handle to V2 provided V2 itself survived the
capacity eviction pass of the second insert (with its value intact) —
it never returns V1. -/
theorem c6_same_key_replacement (s s₁ s₂ : Shard) (i₁ i₂ : Nat) (k : Key)
    (h v₁ c₁ v₂ c₂ : Nat) (hr : Reach s)
    (h₁ : insert s k h v₁ c₁ = (i₁, s₁))
    (h₂ : insert s₁ k h v₂ c₂ = (i₂, s₂))
    (hres : i₁ ∈ s₁.table) :
    (i₁ ∉ s₂.table ∧ i₁ ∉ s₂.ring) ∧
    (∀ x ∈ s₂.freed, x.1 ≠ i₁) ∧
    i₁ ∈ s₂.handles ∧ value s₂ i₁ = some v₁ ∧
    (s₂.handles.count i₁ = 1 →
      (release s₂ i₁).freed = s₂.freed ++ [(i₁, k, v₁)]) ∧
    (i₂ ∈ s₂.table → (lookup s₂ k h).1 = some i₂ ∧ value s₂ i₂ = some v₂) := by
  have w := wf_reach hr
  have hs₁ : (insert s k h v₁ c₁).2 = s₁ := congrArg Prod.snd h₁
  have hs₂ : (insert s₁ k h v₂ c₂).2 = s₂ := congrArg Prod.snd h₂
  have hi₁ : i₁ = s.nextId := by
    have hfst := congrArg Prod.fst h₁
    rw [insert_ret] at hfst
    exact hfst.symm
  have hi₂ : i₂ = s₁.nextId := by
    have hfst := congrArg Prod.fst h₂
    rw [insert_ret] at hfst
    exact hfst.symm
  have hr₁ : Reach s₁ := hs₁ ▸ Reach.insert k h v₁ c₁ hr
  have w₁ := wf_reach hr₁
  have hr₂ : Reach s₂ := hs₂ ▸ Reach.insert k h v₂ c₂ hr₁
  have w₂ := wf_reach hr₂
  obtain ⟨gh₁, gc₁, _, _⟩ := insert_ghost s k h v₁ c₁
  rw [hs₁] at gh₁ gc₁
  obtain ⟨gh₂, gc₂, _, _⟩ := insert_ghost s₁ k h v₂ c₂
  rw [hs₂] at gh₂ gc₂
  cases he₁ : hGet s₁.heap i₁ with
  | none => exact absurd he₁ (w₁.tableAlive i₁ hres)
  | some e₁ =>
    have hcg : cGet s₁.created i₁ = some (k, h, v₁, c₁ % W64) := by
      rw [gc₁, hi₁, cGet_append]
      have hnone : cGet s.created s.nextId = none :=
        cGet_eq_none (fun x hx => Nat.ne_of_lt (w.createdLt x hx))
      rw [hnone]
      simp [cGet]
    have htriple := w₁.createdVal i₁ e₁ he₁
    rw [hcg] at htriple
    have htr := Option.some_inj.mp htriple
    have hk : e₁.key = k := (congrArg Prod.fst htr).symm
    have hh : e₁.hash = h := by
      have := congrArg (fun t => t.2.1) htr
      exact this.symm
    have hv : e₁.value = v₁ := by
      have := congrArg (fun t => t.2.2.1) htr
      exact this.symm
    have hpart1 : i₁ ∉ s₂.table ∧ i₁ ∉ s₂.ring := by
      rw [← hs₂]
      exact insert_replaces s₁ k h v₂ c₂ w₁ hres he₁ hk hh
    have hlt₁ : i₁ < s₁.nextId := w₁.heapLt (i₁, e₁) (mem_of_hGet he₁)
    have hmem₂ : i₁ ∈ s₂.handles := by
      rw [gh₂]
      refine List.mem_append_left _ ?_
      rw [gh₁, hi₁]
      exact List.mem_append_right _ (by simp)
    have hcg₂ : cGet s₂.created i₁ = some (k, h, v₁, c₁ % W64) := by
      rw [gc₂]
      exact cGet_append_left hcg
    cases he₂ : hGet s₂.heap i₁ with
    | none => exact absurd he₂ (w₂.handlesAlive i₁ hmem₂)
    | some e₂ =>
      have htriple₂ := w₂.createdVal i₁ e₂ he₂
      rw [hcg₂] at htriple₂
      have htr₂ := Option.some_inj.mp htriple₂
      have hk₂ : e₂.key = k := (congrArg Prod.fst htr₂).symm
      have hh₂ : e₂.hash = h := by
        have := congrArg (fun t => t.2.1) htr₂
        exact this.symm
      have hv₂ : e₂.value = v₁ := by
        have := congrArg (fun t => t.2.2.1) htr₂
        exact this.symm
      refine ⟨hpart1, ?_, hmem₂, ?_, ?_, ?_⟩
      · intro x hx hxe
        have := w₂.freedDead x hx
        rw [hxe, he₂] at this
        cases this
      · simp [value, he₂, hv₂]
      · intro hone
        have hre := w₂.refsEq i₁ e₂ he₂
        rw [if_neg hpart1.1, hone] at hre
        have hz : e₂.refs - 1 = 0 := by omega
        have hfrd : (release s₂ i₁).freed = (unref s₂ i₁).freed := rfl
        rw [hfrd, unref_free he₂ hz]
        simp [hk₂, hv₂]
      · intro hi₂T
        cases he₂' : hGet s₂.heap i₂ with
        | none => exact absurd he₂' (w₂.tableAlive i₂ hi₂T)
        | some e₂' =>
          have hcg₂' : cGet s₂.created i₂ = some (k, h, v₂, c₂ % W64) := by
            rw [gc₂, hi₂, cGet_append]
            have hnone : cGet s₁.created s₁.nextId = none :=
              cGet_eq_none (fun x hx => Nat.ne_of_lt (w₁.createdLt x hx))
            rw [hnone]
            simp [cGet]
          have htriple₂' := w₂.createdVal i₂ e₂' he₂'
          rw [hcg₂'] at htriple₂'
          have htr₂' := Option.some_inj.mp htriple₂'
          have hk' : e₂'.key = k := (congrArg Prod.fst htr₂').symm
          have hh' : e₂'.hash = h := by
            have := congrArg (fun t => t.2.1) htr₂'
            exact this.symm
          have hv' : e₂'.value = v₂ := by
            have := congrArg (fun t => t.2.2.1) htr₂'
            exact this.symm
          have hfind : tFind s₂.heap s₂.table k h = some i₂ := by
            have := tFind_unique w₂.tableKeys hi₂T he₂'
            rwa [hk', hh'] at this
          constructor
          · unfold lookup
            rw [hfind]
            dsimp only
            cases hGet s₂.heap i₂ with
            | none => rfl
            | some e => rfl
          · simp [value, he₂', hv']

/-- Witness for C6's amended theorem: capacity 10, key `[3]`, values 11
then 22, both inserts fitting within capacity. -/
theorem c6_same_key_replacement_witness :
    Reach (mkShard 10) ∧
    0 ∈ (insert (mkShard 10) [3] 1 11 1).2.table ∧
    (((0 : Nat) ∉ (insert (insert (mkShard 10) [3] 1 11 1).2 [3] 1 22 1).2.table ∧
      (0 : Nat) ∉ (insert (insert (mkShard 10) [3] 1 11 1).2 [3] 1 22 1).2.ring) ∧
     (∀ x ∈ (insert (insert (mkShard 10) [3] 1 11 1).2 [3] 1 22 1).2.freed,
        x.1 ≠ 0) ∧
     0 ∈ (insert (insert (mkShard 10) [3] 1 11 1).2 [3] 1 22 1).2.handles ∧
     value (insert (insert (mkShard 10) [3] 1 11 1).2 [3] 1 22 1).2 0 = some 11 ∧
     ((insert (insert (mkShard 10) [3] 1 11 1).2 [3] 1 22 1).2.handles.count 0 = 1 →
       (release (insert (insert (mkShard 10) [3] 1 11 1).2 [3] 1 22 1).2 0).freed =
         (insert (insert (mkShard 10) [3] 1 11 1).2 [3] 1 22 1).2.freed ++
           [(0, [3], 11)]) ∧
     (1 ∈ (insert (insert (mkShard 10) [3] 1 11 1).2 [3] 1 22 1).2.table →
       (lookup (insert (insert (mkShard 10) [3] 1 11 1).2 [3] 1 22 1).2 [3] 1).1 =
         some 1 ∧
       value (insert (insert (mkShard 10) [3] 1 11 1).2 [3] 1 22 1).2 1 =
         some 22)) :=
  ⟨Reach.init 10, by decide,
    c6_same_key_replacement (mkShard 10) (insert (mkShard 10) [3] 1 11 1).2
      (insert (insert (mkShard 10) [3] 1 11 1).2 [3] 1 22 1).2 0 1 [3] 1 11 1 22 1
      (Reach.init 10) rfl rfl (by decide)⟩

/-- **C8 counterexample**: in a cache built by `NewLRUCache(100)` each of
the 16 shards gets capacity `(100 + 15) / 16 = 7`, so an entry of charge
60 exceeds its shard's capacity and is evicted by its own `Insert` call.
With a hash function sending every key to shard 0, after inserting key
"a" (`[97]`) with charge 60 and key "b" (`[98]`) with charge 60, the
lookup of "b" also returns not-found — refuting the claim that
`Lookup("b")` returns a handle to "b"'s value. -/
theorem c8_counterexample :
    (((newCache 100).shards.getD 0 (mkShard 0)).capacity = 7) ∧
    (sLookup (fun _ => 0)
      (sInsert (fun _ => 0)
        (sInsert (fun _ => 0) (newCache 100) [97] 10 60).2 [98] 20 60).2
      [98]).1 = none ∧
    (sLookup (fun _ => 0)
      (sInsert (fun _ => 0)
        (sInsert (fun _ => 0) (newCache 100) [97] 10 60).2 [98] 20 60).2
      [97]).1 = none := by
  decide

/-- **C8** (amended): the capacity-100 scenario as the code actually runs
it.  `NewLRUCache(100)` splits the capacity into 16 shards of capacity 7
each; with every key hashing to shard 0, inserting "a" (charge 60),
releasing its handle, inserting "b" (charge 60) and releasing its handle
leaves BOTH keys unreachable — each insert's own eviction pass removes
its entry because 60 > 7 — and after the releases both entries' deleters
have run and the shard's usage is back to 0. -/
theorem c8_capacity100_scenario :
    let hf0 : Key → Nat := fun _ => 0
    let r1 := sInsert hf0 (newCache 100) [97] 10 60
    let c1 := sRelease r1.2 r1.1
    let r2 := sInsert hf0 c1 [98] 20 60
    let c2 := sRelease r2.2 r2.1
    (sLookup hf0 c2 [97]).1 = none ∧
    (sLookup hf0 c2 [98]).1 = none ∧
    ((newCache 100).shards.getD 0 (mkShard 0)).capacity = 7 ∧
    (c2.shards.getD 0 (mkShard 0)).usage = 0 ∧
    (c2.shards.getD 0 (mkShard 0)).freed =
      [(0, [97], 10), (1, [98], 20)] := by
  decide

/-- **C9**: `NewId` draws from the single global counter `last_id_`
starting at 0, so over any operation trace from a fresh cache —
regardless of the hash function, the total capacity, and the
interleaved shard operations — the `NewId` calls return exactly the
contiguous run `1, 2, ..., N` (so the first call returns 1, each value
is strictly greater than all previously returned ones, and no value
repeats), as long as the `uint64_t` counter does not wrap. -/
theorem c9_newid_counter (hf : Key → Nat) (cap : Nat) (ops : List SOp)
    (hb : countNewId ops < W64) :
    newIdOutputs hf (newCache cap) ops = List.range' 1 (countNewId ops) ∧
    List.Pairwise (fun a b => a < b) (newIdOutputs hf (newCache cap) ops) := by
  have h0 : (newCache cap).lastId = 0 := rfl
  have hspec := newIdOutputs_spec hf ops (newCache cap) (by rw [h0]; omega)
  rw [h0] at hspec
  norm_num at hspec
  exact ⟨hspec, by rw [hspec]; exact pairwise_lt_range1 _ _⟩

/-- Witness for C9 on a concrete mixed trace: three `NewId` calls
interleaved with shard operations return `[1, 2, 3]`. -/
theorem c9_newid_counter_witness :
    countNewId [SOp.newId, SOp.ins [1] 2 3, SOp.newId, SOp.lkp [1],
      SOp.newId] < W64 ∧
    newIdOutputs (fun _ => 0) (newCache 5)
      [SOp.newId, SOp.ins [1] 2 3, SOp.newId, SOp.lkp [1], SOp.newId] =
      [1, 2, 3] :=
  ⟨by decide,
    (c9_newid_counter (fun _ => 0) 5
      [SOp.newId, SOp.ins [1] 2 3, SOp.newId, SOp.lkp [1], SOp.newId]
      (by decide)).1⟩

/-- **C10**: in a cache built by `NewLRUCache(0)` every shard has
capacity `(0 + 15) / 16 = 0`, so inserting any entry with positive
charge (as a `size_t`) leaves the key unreachable: the insert's own
eviction pass removes it, a `Lookup` of the key right after the
`Insert` returns not-found, yet the handle the `Insert` returned still
yields the inserted value through `Value()`.  (The charge-sum bound
keeps the shard's `size_t` usage arithmetic from wrapping.) -/
theorem c10_zero_capacity (hf : Key → Nat) (c : SCache) (k : Key)
    (v ch : Nat) (hr : SReach hf 0 c) (hch : 0 < ch % W64)
    (hsum : chargeSum (c.shards.getD (shardOf (hashOf hf k))
      (mkShard 0)).heap + ch % W64 < W64) :
    (sLookup hf (sInsert hf c k v ch).2 k).1 = none ∧
    sValue (sInsert hf c k v ch).2 (sInsert hf c k v ch).1 = some v := by
  obtain ⟨hlen, hmem⟩ := sreach_shards hr
  have hnlt : shardOf (hashOf hf k) < c.shards.length := by
    rw [hlen]; exact shardOf_lt (hashOf_lt hf k)
  have hgd : c.shards.getD (shardOf (hashOf hf k)) (mkShard 0) ∈ c.shards := by
    rw [List.getD_eq_getElem _ _ hnlt]
    exact List.getElem_mem hnlt
  obtain ⟨hre, hcap⟩ := hmem _ hgd
  have hcap0 : (c.shards.getD (shardOf (hashOf hf k)) (mkShard 0)).capacity
      = 0 := by rw [hcap]; decide
  obtain ⟨hring, htable, hlk, hval, hmemh⟩ :=
    insert_over_cap (c.shards.getD (shardOf (hashOf hf k)) (mkShard 0)) k
      (hashOf hf k) v ch hre (by rw [hcap0]; exact hch) hsum
  have hgd' : (sInsert hf c k v ch).2.shards.getD (shardOf (hashOf hf k))
      (mkShard 0) =
      (insert (c.shards.getD (shardOf (hashOf hf k)) (mkShard 0)) k
        (hashOf hf k) v ch).2 := by
    show (c.shards.set (shardOf (hashOf hf k)) _).getD
      (shardOf (hashOf hf k)) (mkShard 0) = _
    exact getD_set_self _ _ _ _ hnlt
  constructor
  · show ((lookup ((sInsert hf c k v ch).2.shards.getD
      (shardOf (hashOf hf k)) (mkShard 0)) k (hashOf hf k)).1.map
        (fun i => (shardOf (hashOf hf k), i))) = none
    rw [hgd', hlk]
    rfl
  · show value ((sInsert hf c k v ch).2.shards.getD (shardOf (hashOf hf k))
      (mkShard 0)) (insert (c.shards.getD (shardOf (hashOf hf k))
        (mkShard 0)) k (hashOf hf k) v ch).1 = some v
    rw [hgd']
    exact hval

/-- Witness for C10: a concrete charge-3 insert into `NewLRUCache(0)`
misses on lookup while `Value` on the returned handle still gives the
inserted value. -/
theorem c10_zero_capacity_witness :
    (0 < 3 % W64 ∧
     chargeSum ((newCache 0).shards.getD
       (shardOf (hashOf (fun _ => 0) [5])) (mkShard 0)).heap + 3 % W64 <
       W64) ∧
    ((sLookup (fun _ => 0)
        (sInsert (fun _ => 0) (newCache 0) [5] 9 3).2 [5]).1 = none ∧
     sValue (sInsert (fun _ => 0) (newCache 0) [5] 9 3).2
       (sInsert (fun _ => 0) (newCache 0) [5] 9 3).1 = some 9) :=
  ⟨⟨by decide, by decide⟩,
    c10_zero_capacity (fun _ => 0) (newCache 0) [5] 9 3 SReach.init
      (by decide) (by decide)⟩

end LevelDB
